import Mathlib

/-!
Verification of the Turkish diacritics checker (`hooks/turkish-check.py`).

The Python source is shallowly embedded: strings are `List Char`, Python
dicts are insertion-ordered association lists, Python sets used only for
membership are plain lists, and the external hunspell process is an
abstract `Oracle` whose two batch operations are the two functions the
program may call.  Each definition mirrors the function of the same name
in the source file; auxiliary definitions used only in proofs are marked
as such.
-/

set_option maxHeartbeats 1000000

abbrev Str := List Char

/-- Turn a Lean string literal into the `List Char` representation. -/
def str (s : String) : Str := s.data

/-- `DIACRITICS_MAP` from the source: diacritic character to its ASCII fold. -/
def DIACRITICS_MAP : List (Char × Char) :=
  [('ç', 'c'), ('Ç', 'C'), ('ğ', 'g'), ('Ğ', 'G'), ('ı', 'i'), ('İ', 'I'),
   ('ö', 'o'), ('Ö', 'O'), ('ş', 's'), ('Ş', 'S'), ('ü', 'u'), ('Ü', 'U')]

/-- `SWAP_MAP` from the source: ASCII letter to its diacritic counterparts. -/
def SWAP_MAP : List (Char × List Char) :=
  [('c', ['ç']), ('g', ['ğ']), ('i', ['ı']), ('o', ['ö']), ('s', ['ş']), ('u', ['ü']),
   ('C', ['Ç']), ('G', ['Ğ']), ('I', ['İ']), ('O', ['Ö']), ('S', ['Ş']), ('U', ['Ü'])]

/-- One character of `ascii_fold`: `DIACRITICS_MAP.get(c, c)`. -/
def foldChar (c : Char) : Char := (DIACRITICS_MAP.lookup c).getD c

/-- `ascii_fold` from the source. -/
def ascii_fold (s : Str) : Str := s.map foldChar

/-- `count_diacritics` from the source: number of characters in `DIACRITICS_MAP`. -/
def count_diacritics (s : Str) : Nat :=
  s.countP (fun c => (DIACRITICS_MAP.lookup c).isSome)

/-- ASCII upper-case to lower-case table (behaviour of `str.lower` on ASCII). -/
def ASCII_LOWER : List (Char × Char) :=
  [('A', 'a'), ('B', 'b'), ('C', 'c'), ('D', 'd'), ('E', 'e'), ('F', 'f'), ('G', 'g'),
   ('H', 'h'), ('I', 'i'), ('J', 'j'), ('K', 'k'), ('L', 'l'), ('M', 'm'), ('N', 'n'),
   ('O', 'o'), ('P', 'p'), ('Q', 'q'), ('R', 'r'), ('S', 's'), ('T', 't'), ('U', 'u'),
   ('V', 'v'), ('W', 'w'), ('X', 'x'), ('Y', 'y'), ('Z', 'z')]

/-- Python `str.lower` on one character, for the alphabet the checker handles.
`'İ'.lower()` is the two-character sequence `i` + combining dot above. -/
def pyLowerChar (c : Char) : Str :=
  if c = 'İ' then ['i', '̇']
  else
    match ASCII_LOWER.lookup c with
    | some l => [l]
    | none =>
      if c = 'Ç' then ['ç'] else if c = 'Ğ' then ['ğ'] else if c = 'Ö' then ['ö']
      else if c = 'Ş' then ['ş'] else if c = 'Ü' then ['ü'] else [c]

/-- Python `str.lower` (`word.lower()` in the source). -/
def pyLower (s : Str) : Str := s.flatMap pyLowerChar

/-- `[a-zA-Z]` of the identifier regex. -/
def isAsciiLetter (c : Char) : Bool :=
  (97 ≤ c.toNat && c.toNat ≤ 122) || (65 ≤ c.toNat && c.toNat ≤ 90)

/-- `[A-Z]`. -/
def isAsciiUpper (c : Char) : Bool := 65 ≤ c.toNat && c.toNat ≤ 90

/-- ASCII digit `[0-9]` (used only to state properties of word tokens). -/
def isDigitCh (c : Char) : Bool := 48 ≤ c.toNat && c.toNat ≤ 57

/-- Language of `[a-zA-Z]+[A-Z][a-zA-Z]*` (camelCase branch of `RE_IDENTIFIER`):
all ASCII letters with an upper-case letter at some position ≥ 1. -/
def matchCamel (w : Str) : Bool := w.all isAsciiLetter && (w.drop 1).any isAsciiUpper

/-- Language of `[A-Z]{2,}` (ALL-CAPS branch of `RE_IDENTIFIER`). -/
def matchCaps (w : Str) : Bool := w.all isAsciiUpper && decide (2 ≤ w.length)

/-- Language of `[a-zA-Z]+SEP[a-zA-Z SEP]+` for a separator character:
the snake_case / kebab-case branches of `RE_IDENTIFIER`. -/
def matchSep (sep : Char) (w : Str) : Bool :=
  match w.drop (w.takeWhile isAsciiLetter).length with
  | [] => false
  | c :: b =>
    c = sep && !(w.takeWhile isAsciiLetter).isEmpty && !b.isEmpty &&
      b.all (fun d => isAsciiLetter d || d = sep)

/-- `is_identifier` from the source: full match of `RE_IDENTIFIER`
(camelCase, snake_case, ALL-CAPS of length ≥ 2, or kebab-case). -/
def is_identifier (w : Str) : Bool :=
  matchCamel w || matchSep '_' w || matchCaps w || matchSep '-' w

/-- Inner loop of `layer1_suggestion`: first suggestion that folds to the same
ASCII word, differs case-insensitively, and strictly gains diacritics. -/
def layer1_go (word : Str) : List Str → Option Str
  | [] => none
  | s :: rest =>
    if pyLower (ascii_fold s) = pyLower (ascii_fold word) ∧
        pyLower s ≠ pyLower word ∧
        count_diacritics s > count_diacritics word
    then some s
    else layer1_go word rest

/-- `layer1_suggestion` from the source. -/
def layer1_suggestion (word : Str) (suggestions : List Str) : Option Str :=
  layer1_go word suggestions

/-- Options for one position: `[c] + SWAP_MAP[c]` when swappable, else `[c]`. -/
def swapOpts (c : Char) : List Char :=
  match SWAP_MAP.lookup c with
  | some l => c :: l
  | none => [c]

/-- Number of swappable positions of a word (`swappable` in `generate_variants`). -/
def swappable (word : Str) : Nat :=
  (word.map swapOpts).countP (fun opts => decide (opts.length > 1))

/-- `itertools.product` over a list of option lists, leftmost index slowest. -/
def prodLists : List (List Char) → List (List Char)
  | [] => [[]]
  | opts :: rest => opts.flatMap (fun c => (prodLists rest).map (fun t => c :: t))

/-- Enumeration loop of `generate_variants`: skip the original word, stop after
64 counted candidates, keep candidates that strictly gain diacritics. -/
def genLoop (word : Str) (wdc : Nat) : Nat → List Str → List Str
  | _, [] => []
  | count, cand :: rest =>
    if cand = word then genLoop word wdc count rest
    else if count + 1 > 64 then []
    else if count_diacritics cand > wdc then cand :: genLoop word wdc (count + 1) rest
    else genLoop word wdc (count + 1) rest

/-- `generate_variants` from the source. -/
def generate_variants (word : Str) : List Str :=
  if ¬ word.any (fun c => (SWAP_MAP.lookup c).isSome) then []
  else if swappable word > 6 then []
  else genLoop word (count_diacritics word) 0 (prodLists (word.map swapOpts))

/-- `layer3_ambiguity` from the source. -/
def layer3_ambiguity (word : Str) (amb_lookup : List (Str × Str))
    (amb_skip whitelist : List Str) : Option Str :=
  let wl := pyLower word
  if wl ∈ whitelist ∨
      whitelist.any (fun w =>
        decide (5 ≤ w.length) && w.isPrefixOf wl && decide (wl.length - w.length ≤ 5)) = true
  then none
  else if wl ∈ amb_skip then none
  else amb_lookup.lookup wl

/-!  ## Prose extractor (`strip_non_prose`)

Each `re.sub` pass of the source is embedded as a left-to-right scanner with
the matching semantics of its particular pattern.  Scanners use a fuel
argument (initialised to more than the input length, and decremented once per
scanning step, each of which consumes at least one character); on exhausted
fuel the remaining input is returned unchanged. -/

/-- Newline count of a text (`.count("\n")` in the source). -/
def countNl (s : Str) : Nat := s.count '\n'

/-- Split a text at the first occurrence of `pat`:
`splitPat pat s = some (b, a)` with `s = b ++ pat ++ a` and `b` minimal. -/
def splitPat (pat : Str) : Str → Option (Str × Str)
  | [] => if pat.isPrefixOf ([] : Str) then some ([], []) else none
  | c :: rest =>
    if pat.isPrefixOf (c :: rest) then some ([], (c :: rest).drop pat.length)
    else
      match splitPat pat rest with
      | some (b, a) => some (c :: b, a)
      | none => none

/-- The backtick character (code point 96). -/
def btick : Char := Char.ofNat 96

/-- Python `\s` (ASCII whitespace classes). -/
def isPySpace (c : Char) : Bool :=
  c = ' ' || c = '\t' || c = '\n' || c = '\x0d' || c = '\x0b' || c = '\x0c'

/-- Pass 1: `re.sub(r"^---\n.*?\n---\n", blank, text, count=1, flags=DOTALL)` —
a single leading front-matter block is replaced by its newline count. -/
def stripFrontmatter (s : Str) : Str :=
  if (str "---\n").isPrefixOf s then
    match splitPat (str "\n---\n") (s.drop 4) with
    | some (mid, after) =>
      List.replicate (countNl (str "---\n" ++ mid ++ str "\n---\n")) '\n' ++ after
    | none => s
  else s

/-- Passes 2–3: fenced code blocks (` ``` ` and `~~~` styles) replaced by their
newline count; the fence is `[f, f, f]`. -/
def subFencedGo (f : Char) : Nat → Str → Str
  | 0, s => s
  | _ + 1, [] => []
  | fuel + 1, c :: rest =>
    if [f, f, f].isPrefixOf (c :: rest) then
      match splitPat [f, f, f] (rest.drop 2) with
      | some (mid, after) =>
        List.replicate (countNl ([f, f, f] ++ mid ++ [f, f, f])) '\n' ++
          subFencedGo f fuel after
      | none => c :: subFencedGo f fuel rest
    else c :: subFencedGo f fuel rest

def subFenced (f : Char) (s : Str) : Str := subFencedGo f (s.length + 1) s

/-- Pass 4: inline code spans (one delimiter, at least one non-delimiter char
inside) replaced by a single space. -/
def subInlineGo (tick : Char) : Nat → Str → Str
  | 0, s => s
  | _ + 1, [] => []
  | fuel + 1, c :: rest =>
    if c = tick then
      match splitPat [tick] rest with
      | some (content, after) =>
        if content ≠ [] then ' ' :: subInlineGo tick fuel after
        else c :: subInlineGo tick fuel rest
      | none => c :: subInlineGo tick fuel rest
    else c :: subInlineGo tick fuel rest

def subInlineCode (s : Str) : Str := subInlineGo btick (s.length + 1) s

/-- Match of `^(?:import|export)\s+.*$` (MULTILINE) at the current position:
returns the text after the matched span.  `\s+` is greedy and may cross
newlines; `.*` runs to the end of the line. -/
def impExpMatch (s : Str) : Option Str :=
  if (str "import").isPrefixOf s ∨ (str "export").isPrefixOf s then
    match s.drop 6 with
    | [] => none
    | c :: _ =>
      if isPySpace c then
        some (((s.drop 6).dropWhile isPySpace).dropWhile (fun d => d ≠ '\n'))
      else none
  else none

/-- Pass 5: import/export declaration lines replaced by a single space.
The Bool argument tracks whether the position is at a line start (`^`). -/
def subImpExpGo : Nat → Str → Bool → Str
  | 0, s, _ => s
  | _ + 1, [], _ => []
  | fuel + 1, c :: rest, atStart =>
    if atStart then
      match impExpMatch (c :: rest) with
      | some after => ' ' :: subImpExpGo fuel after false
      | none => c :: subImpExpGo fuel rest (c = '\n')
    else c :: subImpExpGo fuel rest (c = '\n')

def subImpExp (s : Str) : Str := subImpExpGo (s.length + 1) s true

/-- Passes 6 and 7: `open DELIM [^close]{min,} close` spans replaced by a
space: markup tags `<[^>]+>` (`minOne = true`) and brace expressions
`\{[^}]*\}` (`minOne = false`). -/
def subDelimGo (op cl : Char) (minOne : Bool) : Nat → Str → Str
  | 0, s => s
  | _ + 1, [] => []
  | fuel + 1, c :: rest =>
    if c = op then
      match splitPat [cl] rest with
      | some (content, after) =>
        if minOne && content.isEmpty then c :: subDelimGo op cl minOne fuel rest
        else ' ' :: subDelimGo op cl minOne fuel after
      | none => c :: subDelimGo op cl minOne fuel rest
    else c :: subDelimGo op cl minOne fuel rest

def subTag (s : Str) : Str := subDelimGo '<' '>' true (s.length + 1) s

def subBrace (s : Str) : Str := subDelimGo '{' '}' false (s.length + 1) s

/-- Match of `https?://\S+` at the current position. -/
def urlMatch (s : Str) : Option Str :=
  if (str "https://").isPrefixOf s then
    if ((s.drop 8).takeWhile (fun c => !isPySpace c)).isEmpty then none
    else some ((s.drop 8).dropWhile (fun c => !isPySpace c))
  else if (str "http://").isPrefixOf s then
    if ((s.drop 7).takeWhile (fun c => !isPySpace c)).isEmpty then none
    else some ((s.drop 7).dropWhile (fun c => !isPySpace c))
  else none

/-- Pass 8: bare URLs replaced by a space. -/
def subUrlGo : Nat → Str → Str
  | 0, s => s
  | _ + 1, [] => []
  | fuel + 1, c :: rest =>
    match urlMatch (c :: rest) with
    | some after => ' ' :: subUrlGo fuel after
    | none => c :: subUrlGo fuel rest

def subUrl (s : Str) : Str := subUrlGo (s.length + 1) s

/-- Match of `\[([^\]]*)\]\([^)]+\)` at the current position:
returns the label and the text after the span. -/
def linkMatch (s : Str) : Option (Str × Str) :=
  match s with
  | '[' :: t =>
    match splitPat [']'] t with
    | some (label, u) =>
      match u with
      | '(' :: v =>
        match splitPat [')'] v with
        | some (target, w) => if target ≠ [] then some (label, w) else none
        | none => none
      | _ => none
    | none => none
  | _ => none

/-- Pass 9: image references `!\[...\](...)` replaced by a space. -/
def subImgGo : Nat → Str → Str
  | 0, s => s
  | _ + 1, [] => []
  | fuel + 1, c :: rest =>
    if c = '!' then
      match linkMatch rest with
      | some (_, after) => ' ' :: subImgGo fuel after
      | none => c :: subImgGo fuel rest
    else c :: subImgGo fuel rest

def subImg (s : Str) : Str := subImgGo (s.length + 1) s

/-- Pass 10: link references `\[label\](target)` replaced by their label. -/
def subLinkGo : Nat → Str → Str
  | 0, s => s
  | _ + 1, [] => []
  | fuel + 1, c :: rest =>
    match linkMatch (c :: rest) with
    | some (label, after) => label ++ subLinkGo fuel after
    | none => c :: subLinkGo fuel rest

def subLink (s : Str) : Str := subLinkGo (s.length + 1) s

/-- Pass 11: footnote references `\[\^[^\]]+\]` replaced by a space. -/
def subFootGo : Nat → Str → Str
  | 0, s => s
  | _ + 1, [] => []
  | fuel + 1, c :: rest =>
    match c :: rest with
    | '[' :: '^' :: t =>
      match splitPat [']'] t with
      | some (content, after) =>
        if content ≠ [] then ' ' :: subFootGo fuel after
        else c :: subFootGo fuel rest
      | none => c :: subFootGo fuel rest
    | _ => c :: subFootGo fuel rest

def subFoot (s : Str) : Str := subFootGo (s.length + 1) s

/-- Pass 12: the literal tokens `[bdi]`, `[/bdi]`, `[var]`, `[/var]`
replaced by a space. -/
def bdiVarMatch (s : Str) : Option Str :=
  if (str "[bdi]").isPrefixOf s ∨ (str "[var]").isPrefixOf s then some (s.drop 5)
  else if (str "[/bdi]").isPrefixOf s ∨ (str "[/var]").isPrefixOf s then some (s.drop 6)
  else none

def subBdiVarGo : Nat → Str → Str
  | 0, s => s
  | _ + 1, [] => []
  | fuel + 1, c :: rest =>
    match bdiVarMatch (c :: rest) with
    | some after => ' ' :: subBdiVarGo fuel after
    | none => c :: subBdiVarGo fuel rest

def subBdiVar (s : Str) : Str := subBdiVarGo (s.length + 1) s

/-- Pass 13: comment blocks (DOTALL) replaced by their newline count. -/
def subCommentsGo : Nat → Str → Str
  | 0, s => s
  | _ + 1, [] => []
  | fuel + 1, c :: rest =>
    if (str "<!--").isPrefixOf (c :: rest) then
      match splitPat (str "-->") (rest.drop 3) with
      | some (mid, after) =>
        List.replicate (countNl (str "<!--" ++ mid ++ str "-->")) '\n' ++
          subCommentsGo fuel after
      | none => c :: subCommentsGo fuel rest
    else c :: subCommentsGo fuel rest

def subComments (s : Str) : Str := subCommentsGo (s.length + 1) s

/-- Pass 14: leading heading markers `^#+\s*` (MULTILINE) removed; the greedy
`\s*` may cross newlines.  The Bool argument tracks line starts. -/
def subHeaderGo : Nat → Str → Bool → Str
  | 0, s, _ => s
  | _ + 1, [], _ => []
  | fuel + 1, c :: rest, atStart =>
    if atStart ∧ c = '#' then
      let t := (c :: rest).dropWhile (fun d => d = '#')
      let ws := t.takeWhile isPySpace
      subHeaderGo fuel (t.dropWhile isPySpace) (ws.getLastD '#' = '\n')
    else c :: subHeaderGo fuel rest (c = '\n')

def subHeader (s : Str) : Str := subHeaderGo (s.length + 1) s true

/-- Pass 15: emphasis markers `\*{1,3}|_{1,3}` removed (greedy, up to three
marker characters per match). -/
def subEmphGo : Nat → Str → Str
  | 0, s => s
  | _ + 1, [] => []
  | fuel + 1, c :: rest =>
    if c = '*' ∨ c = '_' then
      subEmphGo fuel (rest.drop (min (rest.takeWhile (fun d => d = c)).length 2))
    else c :: subEmphGo fuel rest

def subEmph (s : Str) : Str := subEmphGo (s.length + 1) s

/-- `strip_non_prose` from the source: the fourteen substitution passes in
source order. -/
def strip_non_prose (text : Str) : Str :=
  subEmph (subHeader (subComments (subBdiVar (subFoot (subLink (subImg (subUrl
    (subBrace (subTag (subImpExp (subInlineCode (subFenced '~'
      (subFenced btick (stripFrontmatter text))))))))))))))

/-!  ## Word indexer and Python data-structure helpers -/

/-- Python `str.splitlines` restricted to `\n` terminators (file contents are
read in universal-newline text mode): no trailing empty line. -/
def splitlinesAux (acc : Str) : Str → List Str
  | [] => [acc.reverse]
  | '\n' :: rest => acc.reverse :: splitlinesAux [] rest
  | c :: rest => splitlinesAux (c :: acc) rest

def splitlines (s : Str) : List Str :=
  if s = [] then []
  else if s.getLastD ' ' = '\n' then (splitlinesAux [] s).dropLast
  else splitlinesAux [] s

/-- The letter class of the tokenizer regex `[a-zA-ZçğıöşüÇĞİÖŞÜ]`. -/
def isLetterTk (c : Char) : Bool :=
  isAsciiLetter c || c ∈ ['ç', 'ğ', 'ı', 'ö', 'ş', 'ü', 'Ç', 'Ğ', 'İ', 'Ö', 'Ş', 'Ü']

/-- Python word character (`\w`) for the alphabets in play: ASCII alphanumerics,
underscore, and the Turkish letters. -/
def isWordChar (c : Char) : Bool :=
  isAsciiLetter c || isDigitCh c || c = '_' || isLetterTk c

/-- Maximal runs of word characters of a line. -/
def wordRunsGo : Nat → Str → List Str
  | 0, _ => []
  | _ + 1, [] => []
  | fuel + 1, c :: rest =>
    if isWordChar c then
      (c :: rest.takeWhile isWordChar) :: wordRunsGo fuel (rest.dropWhile isWordChar)
    else wordRunsGo fuel rest

/-- `re.findall(r"\b[a-zA-ZçğıöşüÇĞİÖŞÜ]+\b", line)`: the maximal word-character
runs consisting entirely of letters of the class. -/
def findall_words (line : Str) : List Str :=
  (wordRunsGo (line.length + 1) line).filter (fun r => r.all isLetterTk)

/-- `dict.setdefault(k, []).append(v)` on an insertion-ordered association
list. -/
def pdAppend {α : Type} (d : List (Str × List α)) (k : Str) (v : α) :
    List (Str × List α) :=
  if d.any (fun p => p.1 = k) then
    d.map (fun p => if p.1 = k then (p.1, p.2 ++ [v]) else p)
  else d ++ [(k, [v])]

/-- `dict[k] = v` on an insertion-ordered association list (overwrite keeps the
key's position). -/
def pdSet {α : Type} (d : List (Str × α)) (k : Str) (v : α) : List (Str × α) :=
  if d.any (fun p => p.1 = k) then d.map (fun p => if p.1 = k then (p.1, v) else p)
  else d ++ [(k, v)]

/-- Dict built from a pair sequence by repeated assignment. -/
def pyDictOfPairs {α : Type} (ps : List (Str × α)) : List (Str × α) :=
  ps.foldl (fun d p => pdSet d p.1 p.2) []

/-- Dictionary lookup with default (`dict.get(k, dflt)`). -/
def lookupD {α : Type} (d : List (Str × α)) (k : Str) (dflt : α) : α :=
  match d.lookup k with
  | some v => v
  | none => dflt

/-- Layer 0 of `main`: the word index, mapping each distinct word (length ≥ 2)
of the prose to its 1-based line numbers. -/
def word_locations (prose : Str) : List (Str × List Nat) :=
  (List.enumFrom 1 (splitlines prose)).foldl
    (fun d p =>
      (findall_words p.2).foldl
        (fun d' w => if w.length < 2 then d' else pdAppend d' w p.1) d)
    []

/-- Python string comparison (lexicographic on code points). -/
def strLe : Str → Str → Bool
  | [], _ => true
  | _ :: _, [] => false
  | a :: as, b :: bs => decide (a < b) || (decide (a = b) && strLe as bs)

/-- Insertion into a `strLe`-sorted list. -/
def insertSorted (x : Str) : List Str → List Str
  | [] => [x]
  | y :: ys => if strLe x y then x :: y :: ys else y :: insertSorted x ys

/-- Python `sorted` on a list of distinct strings. -/
def sortStrs (l : List Str) : List Str := l.foldr insertSorted []

/-!  ## The scan pipeline (`main`, lines 294–419)

The external hunspell engine is an `Oracle`: `check` is the parsed output of
the `hunspell -a` batch call (per misspelled word, its suggestion list, in
output order), `valid` is the answer of the `hunspell -l` batch validity
call, as the program enumerates it (the source iterates a Python `set`, so
the enumeration order is part of the process state, not of the answer
set). -/

structure Oracle where
  check : Str → List (Str × List Str)
  valid : List Str → List Str

/-- One external call made by a scan. -/
inductive OCall
  | check (input : Str)
  | valid (input : List Str)
deriving DecidableEq

/-- A reported error (`errors` entries in `main`). -/
structure Finding where
  word : Str
  correction : Str
  lines : List Nat
  confidence : Str
  layer : Nat
deriving DecidableEq

/-- Pass 1 of `main` (lines 327–350): Layer 1 claims plus Layer 2 candidate
collection, threading `seen_lower`.  Returns (errors, seen, candidates). -/
def pass1go (whitelist : List Str) (wloc : List (Str × List Nat)) :
    List (Str × List Str) → List Str →
      List Finding × List Str × List (Str × List Str)
  | [], seen => ([], seen, [])
  | (word, suggestions) :: rest, seen =>
    if pyLower word ∈ seen ∨ word.length < 3 then pass1go whitelist wloc rest seen
    else if is_identifier word = true ∨ pyLower word ∈ whitelist then
      pass1go whitelist wloc rest seen
    else
      match layer1_suggestion word suggestions with
      | some correction =>
        let r := pass1go whitelist wloc rest (pyLower word :: seen)
        (⟨word, correction, lookupD wloc word [], str "high", 1⟩ :: r.1, r.2.1, r.2.2)
      | none =>
        let variants := generate_variants word
        if variants = [] then pass1go whitelist wloc rest seen
        else
          let r := pass1go whitelist wloc rest seen
          (r.1, r.2.1, (word, variants) :: r.2.2)

/-- `all_variants` (lines 356–361): the Layer 2 variants in collection order. -/
def all_variants (cands : List (Str × List Str)) : List Str :=
  cands.flatMap (fun p => p.2)

/-- `variant_to_word` (lines 357–361): variant to source word, later words
overwriting earlier ones on shared variants. -/
def variant_to_word (cands : List (Str × List Str)) : List (Str × Str) :=
  (cands.flatMap (fun p => p.2.map (fun v => (v, p.1)))).foldl
    (fun d q => pdSet d q.1 q.2) []

/-- `word_valid` (lines 365–368): group the enumerated valid variants by their
source word. -/
def word_valid (v2w : List (Str × Str)) (validEnum : List Str) :
    List (Str × List Str) :=
  validEnum.foldl
    (fun d v =>
      match v2w.lookup v with
      | some src => pdAppend d src v
      | none => d)
    []

/-- `min(valid_list, key=count_diacritics)`: first element with minimal
diacritic count (Python `min` keeps the earliest on ties). -/
def minByDcGo (cur : Str) : List Str → Str
  | [] => cur
  | v :: vs =>
    if count_diacritics v < count_diacritics cur then minByDcGo v vs
    else minByDcGo cur vs

def minByDc : List Str → Str
  | [] => []
  | v :: vs => minByDcGo v vs

/-- Pass 2 of `main` (lines 370–385): Layer 2 claims. -/
def pass2go (wloc : List (Str × List Nat)) :
    List (Str × List Str) → List Str → List Finding × List Str
  | [], seen => ([], seen)
  | (word, valid_list) :: rest, seen =>
    if pyLower word ∈ seen then pass2go wloc rest seen
    else
      let r := pass2go wloc rest (pyLower word :: seen)
      (⟨word, minByDc valid_list, lookupD wloc word [], str "high", 2⟩ :: r.1, r.2)

/-- Pass 3 of `main` (lines 390–419): Layer 3 claims over the sorted distinct
words, stopping after 15 claims (`LAYER3_BRAKE`). -/
def pass3go (amb_lookup : List (Str × Str)) (amb_skip whitelist : List Str)
    (misspKeys : List Str) (wloc : List (Str × List Nat)) :
    List Str → List Str → Nat → List Finding
  | [], _, _ => []
  | word :: rest, seen, count =>
    if pyLower word ∈ seen then
      pass3go amb_lookup amb_skip whitelist misspKeys wloc rest seen count
    else if is_identifier word = true ∨ word.length < 3 then
      pass3go amb_lookup amb_skip whitelist misspKeys wloc rest seen count
    else if ¬ word.any (fun c => (SWAP_MAP.lookup c).isSome) then
      pass3go amb_lookup amb_skip whitelist misspKeys wloc rest seen count
    else if word ∈ misspKeys then
      pass3go amb_lookup amb_skip whitelist misspKeys wloc rest seen count
    else
      match layer3_ambiguity word amb_lookup amb_skip whitelist with
      | some correction =>
        if correction ≠ [] ∧ pyLower correction ≠ pyLower word then
          let f : Finding := ⟨word, correction, lookupD wloc word [], str "medium", 3⟩
          if count + 1 ≥ 15 then [f]
          else f :: pass3go amb_lookup amb_skip whitelist misspKeys wloc rest
            (pyLower word :: seen) (count + 1)
        else pass3go amb_lookup amb_skip whitelist misspKeys wloc rest seen count
      | none => pass3go amb_lookup amb_skip whitelist misspKeys wloc rest seen count

/-- Stage: stripped prose of the document. -/
def scanProse (content : Str) : Str := strip_non_prose content

/-- Stage: the word index. -/
def scanWloc (content : Str) : List (Str × List Nat) :=
  word_locations (scanProse content)

/-- Stage: distinct indexed words (dict keys, insertion order). -/
def scanUniq (content : Str) : List Str := (scanWloc content).map Prod.fst

/-- Stage: `sorted(unique_words)`. -/
def scanSorted (content : Str) : List Str := sortStrs (scanUniq content)

/-- Stage: `words_text = "\n".join(sorted(unique_words))`. -/
def scanWordsText (content : Str) : Str :=
  List.intercalate ['\n'] (scanSorted content)

/-- Stage: `misspellings` — the parsed result of hunspell call #1, with dict
assignment semantics on repeated words. -/
def scanMissp (o : Oracle) (content : Str) : List (Str × List Str) :=
  pyDictOfPairs (o.check (scanWordsText content))

/-- Stage: pass 1 outcome. -/
def scanPass1 (o : Oracle) (content : Str) (whitelist : List Str) :
    List Finding × List Str × List (Str × List Str) :=
  pass1go whitelist (scanWloc content) (scanMissp o content) []

/-- Stage: `layer2_candidates`. -/
def scanCands (o : Oracle) (content : Str) (whitelist : List Str) :
    List (Str × List Str) :=
  (scanPass1 o content whitelist).2.2

/-- Stage: `all_variants`. -/
def scanAllVariants (o : Oracle) (content : Str) (whitelist : List Str) : List Str :=
  all_variants (scanCands o content whitelist)

/-- Stage: the enumeration of the Python set `valid_variants`
(`set(words) - misspelled`, a subset of the submitted words without
duplicates, in the process's set order). -/
def scanValidEnum (o : Oracle) (content : Str) (whitelist : List Str) : List Str :=
  ((o.valid (scanAllVariants o content whitelist)).filter
    (fun v => v ∈ scanAllVariants o content whitelist)).dedup

/-- Stage: `word_valid`. -/
def scanWordValid (o : Oracle) (content : Str) (whitelist : List Str) :
    List (Str × List Str) :=
  word_valid (variant_to_word (scanCands o content whitelist))
    (scanValidEnum o content whitelist)

/-- Stage: pass 2 outcome (empty, skipping hunspell call #2, when there are no
Layer 2 candidates). -/
def scanPass2 (o : Oracle) (content : Str) (whitelist : List Str) :
    List Finding × List Str :=
  if scanCands o content whitelist = [] then ([], (scanPass1 o content whitelist).2.1)
  else pass2go (scanWloc content) (scanWordValid o content whitelist)
    (scanPass1 o content whitelist).2.1

/-- Stage: pass 3 outcome. -/
def scanPass3 (o : Oracle) (content : Str) (whitelist : List Str)
    (amb_lookup : List (Str × Str)) (amb_skip : List Str) : List Finding :=
  pass3go amb_lookup amb_skip whitelist ((scanMissp o content).map Prod.fst)
    (scanWloc content) (scanSorted content) (scanPass2 o content whitelist).2 0

/-- Result of a scan: the findings and the external calls made. -/
structure ScanResult where
  findings : List Finding
  calls : List OCall
deriving DecidableEq

/-- The scan pipeline of `main` (lines 294–419): Layer 0 indexing, hunspell
call #1, passes 1–3, and at most one hunspell call #2. -/
def scan (o : Oracle) (content : Str) (whitelist : List Str)
    (amb_lookup : List (Str × Str)) (amb_skip : List Str) : ScanResult :=
  { findings :=
      (scanPass1 o content whitelist).1 ++ (scanPass2 o content whitelist).1 ++
        scanPass3 o content whitelist amb_lookup amb_skip,
    calls :=
      OCall.check (scanWordsText content) ::
        (if scanCands o content whitelist = [] then []
         else [OCall.valid (scanAllVariants o content whitelist)]) }

/-!  ## Entry point (`main`) and reporter -/

/-- The parsed standard-input payload: either undecodable JSON, or an event
with `tool_name` and `tool_input.file_path` (absent fields default to ""). -/
inductive StdinData
  | malformed
  | event (tool_name : Str) (file_path : Str)

/-- Decimal rendering of a number for the report. -/
def natStr (n : Nat) : Str := (Nat.repr n).data

/-- The single-quote character (code point 39). -/
def sqCh : Char := Char.ofNat 39

/-- One report line for a finding (lines 438–439 and 445–446). -/
def findingLine (e : Finding) : Str :=
  let loc :=
    if e.lines ≠ [] then str " (line " ++ natStr (e.lines.headD 0) ++ str ")"
    else []
  str "  " ++ [sqCh] ++ e.word ++ [sqCh] ++ str " -> " ++ [sqCh] ++ e.correction ++ [sqCh] ++ loc

/-- The human-readable report written to stderr (lines 427–451). -/
def renderReport (file_path : Str) (errors : List Finding) : Str :=
  let high := errors.filter (fun e => e.confidence = str "high")
  let med := errors.filter (fun e => e.confidence = str "medium")
  let hpart :=
    if high ≠ [] then
      (str "[HIGH confidence - " ++ natStr high.length ++ str " errors]") ::
        high.map findingLine ++ [[]]
    else []
  let mpart :=
    if med ≠ [] then
      (str "[MEDIUM confidence - " ++ natStr med.length ++ str " errors]") ::
        med.map findingLine ++ [[]]
    else []
  let lines_out :=
    (str "Turkish diacritics errors in " ++ file_path ++ str " (" ++
        natStr errors.length ++ str " found):") ::
      [] :: (hpart ++ mpart ++ [str "Fix these Turkish character errors using Edit tool."])
  List.intercalate ['\n'] lines_out ++ ['\n']

/-- `os.path.basename` (POSIX). -/
def basename (p : Str) : Str := (p.reverse.takeWhile (fun c => c ≠ '/')).reverse

/-- Outcome of one invocation: exit code, standard output, standard error, and
the findings the scan produced ([] on the early-exit paths). -/
structure MainResult where
  exit : Nat
  out : Str
  err : Str
  findings : List Finding
deriving DecidableEq

/-- `main` from the source.  `checkFiles` is the configured basename set
(`CHECK_FILES`), `fs` maps a path to its content when it is a readable file,
and the dictionaries are the already-loaded whitelist, ambiguity lookup and
skip set. -/
def progMain (checkFiles : List Str) (stdin : StdinData) (fs : Str → Option Str)
    (o : Oracle) (whitelist : List Str) (amb_lookup : List (Str × Str))
    (amb_skip : List Str) : MainResult :=
  match stdin with
  | .malformed => ⟨0, [], [], []⟩
  | .event tool_name file_path =>
    if tool_name ≠ str "Edit" ∧ tool_name ≠ str "Write" then ⟨0, [], [], []⟩
    else if file_path = [] then ⟨0, [], [], []⟩
    else if basename file_path ∉ checkFiles then ⟨0, [], [], []⟩
    else
      match fs file_path with
      | none => ⟨0, [], [], []⟩
      | some content =>
        let errors := (scan o content whitelist amb_lookup amb_skip).findings
        if errors = [] then ⟨0, [], [], []⟩
        else ⟨2, [], renderReport file_path errors, errors⟩

/-!  ## Generic helper lemmas -/

theorem splitPat_eq (pat : Str) :
    ∀ s b a : Str, splitPat pat s = some (b, a) → s = b ++ pat ++ a := by
  intro s
  induction s with
  | nil =>
    intro b a h
    by_cases hp : pat.isPrefixOf ([] : Str)
    · have : pat <+: ([] : Str) := List.isPrefixOf_iff_prefix.mp hp
      have hpat : pat = [] := List.prefix_nil.mp this
      simp [splitPat, hp, hpat] at h
      simp [hpat, h.1, h.2]
    · simp [splitPat, hp] at h
  | cons c rest ih =>
    intro b a h
    by_cases hp : pat.isPrefixOf (c :: rest)
    · simp only [splitPat, hp, if_true] at h
      obtain ⟨hb, ha⟩ := Prod.mk.injEq .. ▸ Option.some.injEq .. ▸ h
      have hpre : pat <+: (c :: rest) := List.isPrefixOf_iff_prefix.mp hp
      have := List.prefix_iff_eq_append.mp hpre
      subst hb ha
      simpa using this.symm
    · simp only [splitPat, hp, if_false] at h
      cases hsp : splitPat pat rest with
      | none => simp [hsp] at h
      | some p =>
        obtain ⟨b', a'⟩ := p
        simp only [hsp] at h
        obtain ⟨hb, ha⟩ := Prod.mk.injEq .. ▸ Option.some.injEq .. ▸ h
        subst hb ha
        simp [ih _ _ hsp]

theorem splitPat_length (pat s b a : Str) (h : splitPat pat s = some (b, a)) :
    a.length + pat.length ≤ s.length := by
  have := congrArg List.length (splitPat_eq pat s b a h)
  simp [List.length_append] at this
  omega

/-- A successful association-list lookup comes from a list member. -/
theorem lookup_mem {α : Type} : ∀ (l : List (Char × α)) (x : Char) (v : α),
    l.lookup x = some v → (x, v) ∈ l := by
  intro l
  induction l with
  | nil => intro x v h; simp [List.lookup] at h
  | cons p rest ih =>
    intro x v h
    obtain ⟨k, w⟩ := p
    by_cases hx : x = k
    · subst hx
      simp [List.lookup] at h
      simp [h]
    · have hbeq : (x == k) = false := beq_false_of_ne hx
      simp [List.lookup, hbeq] at h
      exact List.mem_cons_of_mem _ (ih x v h)

theorem lookupS_mem {α : Type} : ∀ (l : List (Str × α)) (x : Str) (v : α),
    l.lookup x = some v → (x, v) ∈ l := by
  intro l
  induction l with
  | nil => intro x v h; simp [List.lookup] at h
  | cons p rest ih =>
    intro x v h
    obtain ⟨k, w⟩ := p
    by_cases hx : x = k
    · subst hx
      simp [List.lookup] at h
      simp [h]
    · have hbeq : (x == k) = false := beq_false_of_ne hx
      simp [List.lookup, hbeq] at h
      exact List.mem_cons_of_mem _ (ih x v h)

/-!  ## Newline preservation of the blanking passes (towards C2) -/

theorem countNl_append (a b : Str) : countNl (a ++ b) = countNl a + countNl b := by
  simp [countNl, List.count_append]

theorem countNl_nil : countNl [] = 0 := rfl

theorem countNl_cons (c : Char) (s : Str) :
    countNl (c :: s) = countNl s + (if c = '\n' then 1 else 0) := by
  simp [countNl, List.count_cons]

theorem countNl_replicate (k : Nat) : countNl (List.replicate k '\n') = k := by
  simp [countNl]

theorem countNl_stripFrontmatter (s : Str) :
    countNl (stripFrontmatter s) = countNl s := by
  unfold stripFrontmatter
  by_cases hp : (str "---\n").isPrefixOf s
  · simp only [hp, if_true]
    cases hsp : splitPat (str "\n---\n") (s.drop 4) with
    | none => rfl
    | some p =>
      obtain ⟨mid, after⟩ := p
      have hpre : (str "---\n") <+: s := List.isPrefixOf_iff_prefix.mp hp
      have hs : (str "---\n") ++ s.drop 4 = s := by
        have := List.prefix_iff_eq_append.mp hpre
        simpa using this
      have hd : s.drop 4 = mid ++ (str "\n---\n") ++ after := splitPat_eq _ _ _ _ hsp
      conv_rhs => rw [← hs, hd]
      simp only [countNl_append, countNl_replicate]
      omega
  · simp [hp]

theorem countNl_subFencedGo (f : Char) :
    ∀ (fuel : Nat) (s : Str), countNl (subFencedGo f fuel s) = countNl s := by
  intro fuel
  induction fuel with
  | zero => intro s; rfl
  | succ n ih =>
    intro s
    match s with
    | [] => rfl
    | c :: rest =>
      show countNl (subFencedGo f (n + 1) (c :: rest)) = _
      rw [subFencedGo]
      by_cases hp : [f, f, f].isPrefixOf (c :: rest)
      · rw [if_pos hp]
        cases hsp : splitPat [f, f, f] (rest.drop 2) with
        | none =>
          simp only []
          rw [countNl_cons, countNl_cons, ih rest]
        | some p =>
          obtain ⟨mid, after⟩ := p
          have hpre : [f, f, f] <+: (c :: rest) := List.isPrefixOf_iff_prefix.mp hp
          have hs : [f, f, f] ++ rest.drop 2 = c :: rest := by
            have := List.prefix_iff_eq_append.mp hpre
            simpa using this
          have hd : rest.drop 2 = mid ++ [f, f, f] ++ after := splitPat_eq _ _ _ _ hsp
          simp only []
          rw [countNl_append, countNl_replicate, ih after]
          conv_rhs => rw [← hs, hd]
          simp only [countNl_append, List.cons_append, List.nil_append,
            countNl_cons, countNl_nil]
          omega
      · rw [if_neg hp, countNl_cons, countNl_cons, ih rest]

theorem countNl_subFenced (f : Char) (s : Str) :
    countNl (subFenced f s) = countNl s := countNl_subFencedGo f _ s

theorem countNl_subCommentsGo :
    ∀ (fuel : Nat) (s : Str), countNl (subCommentsGo fuel s) = countNl s := by
  intro fuel
  induction fuel with
  | zero => intro s; rfl
  | succ n ih =>
    intro s
    match s with
    | [] => rfl
    | c :: rest =>
      show countNl (subCommentsGo (n + 1) (c :: rest)) = _
      rw [subCommentsGo]
      by_cases hp : (str "<!--").isPrefixOf (c :: rest)
      · rw [if_pos hp]
        cases hsp : splitPat (str "-->") (rest.drop 3) with
        | none =>
          simp only []
          rw [countNl_cons, countNl_cons, ih rest]
        | some p =>
          obtain ⟨mid, after⟩ := p
          have hpre : (str "<!--") <+: (c :: rest) := List.isPrefixOf_iff_prefix.mp hp
          have hs : (str "<!--") ++ rest.drop 3 = c :: rest := by
            have := List.prefix_iff_eq_append.mp hpre
            simpa using this
          have hd : rest.drop 3 = mid ++ (str "-->") ++ after := splitPat_eq _ _ _ _ hsp
          simp only []
          rw [countNl_append, countNl_replicate, ih after]
          conv_rhs => rw [← hs, hd]
          simp only [countNl_append]
          omega
      · rw [if_neg hp, countNl_cons, countNl_cons, ih rest]

theorem countNl_subComments (s : Str) :
    countNl (subComments s) = countNl s := countNl_subCommentsGo _ s

/-!  ## Claims C1 and C2 -/

/-- Claim C1: a scan makes at most two oracle invocations — always exactly one
batch check over the distinct indexed words, and at most one batch validity
call over the union of all Layer 2 variants. -/
theorem claim_C1 (o : Oracle) (content : Str) (whitelist : List Str)
    (amb_lookup : List (Str × Str)) (amb_skip : List Str) :
    (scan o content whitelist amb_lookup amb_skip).calls.length ≤ 2 ∧
      ((scan o content whitelist amb_lookup amb_skip).calls =
          [OCall.check (scanWordsText content)] ∨
        (scan o content whitelist amb_lookup amb_skip).calls =
          [OCall.check (scanWordsText content),
            OCall.valid (scanAllVariants o content whitelist)]) := by
  unfold scan
  by_cases h : scanCands o content whitelist = []
  · simp [h]
  · simp [h]

/-- Claim C2 (counterexample): `strip_non_prose` does not preserve the number
of newline characters — an inline code span that crosses a line is replaced by
a single space, so the two-line input loses its newline. -/
theorem claim_C2_cex :
    countNl (strip_non_prose (str "`a\nb`")) ≠ countNl (str "`a\nb`") := by decide

/-- Claim C2 (amended): the blanking substitutions — the leading front-matter
block, fenced code blocks of either fence style, and comment blocks — each
emit exactly as many newline characters as the removed span contained, so
those passes preserve the newline count of the text.  (The remaining passes
replace a matched span by a space, nothing, or the link label, which keeps the
line count only for spans that do not cross a line.) -/
theorem claim_C2_amended :
    (∀ s, countNl (stripFrontmatter s) = countNl s) ∧
      (∀ f s, countNl (subFenced f s) = countNl s) ∧
      (∀ s, countNl (subComments s) = countNl s) :=
  ⟨countNl_stripFrontmatter, countNl_subFenced, countNl_subComments⟩

/-!  ## Claim C6: `generate_variants` -/

theorem genLoop_not_mem (word : Str) (wdc : Nat) :
    ∀ (l : List Str) (count : Nat), word ∉ genLoop word wdc count l := by
  intro l
  induction l with
  | nil => intro count; simp [genLoop]
  | cons cand rest ih =>
    intro count
    rw [genLoop]
    by_cases hc : cand = word
    · simpa [hc] using ih count
    · rw [if_neg hc]
      by_cases hcount : count + 1 > 64
      · simp [hcount]
      · rw [if_neg hcount]
        by_cases hdc : count_diacritics cand > wdc
        · rw [if_pos hdc]
          intro hmem
          rcases List.mem_cons.mp hmem with h | h
          · exact hc h.symm
          · exact ih (count + 1) h
        · simpa [hdc] using ih (count + 1)

theorem genLoop_length (word : Str) (wdc : Nat) :
    ∀ (l : List Str) (count : Nat), count ≤ 64 →
      (genLoop word wdc count l).length ≤ 64 - count := by
  intro l
  induction l with
  | nil => intro count _; simp [genLoop]
  | cons cand rest ih =>
    intro count hcount
    rw [genLoop]
    by_cases hc : cand = word
    · simpa [hc] using ih count hcount
    · rw [if_neg hc]
      by_cases hover : count + 1 > 64
      · simp [hover]
      · rw [if_neg hover]
        have h1 : count + 1 ≤ 64 := by omega
        by_cases hdc : count_diacritics cand > wdc
        · rw [if_pos hdc]
          have := ih (count + 1) h1
          simp only [List.length_cons]
          omega
        · rw [if_neg hdc]
          have := ih (count + 1) h1
          omega

theorem genLoop_dc (word : Str) (wdc : Nat) :
    ∀ (l : List Str) (count : Nat) (v : Str),
      v ∈ genLoop word wdc count l → count_diacritics v > wdc := by
  intro l
  induction l with
  | nil => intro count v h; simp [genLoop] at h
  | cons cand rest ih =>
    intro count v h
    rw [genLoop] at h
    by_cases hc : cand = word
    · exact ih count v (by simpa [hc] using h)
    · rw [if_neg hc] at h
      by_cases hover : count + 1 > 64
      · simp [hover] at h
      · rw [if_neg hover] at h
        by_cases hdc : count_diacritics cand > wdc
        · rw [if_pos hdc] at h
          rcases List.mem_cons.mp h with h | h
          · subst h; exact hdc
          · exact ih (count + 1) v h
        · exact ih (count + 1) v (by simpa [hdc] using h)

/-- If a word has a swappable position then some of its characters is a
`SWAP_MAP` key. -/
theorem swappable_pos_any (word : Str) (h : swappable word > 0) :
    word.any (fun c => (SWAP_MAP.lookup c).isSome) = true := by
  unfold swappable at h
  rw [gt_iff_lt, List.countP_pos_iff] at h
  obtain ⟨opts, hmem, hlen⟩ := h
  rw [List.mem_map] at hmem
  obtain ⟨c, hc, hopts⟩ := hmem
  rw [List.any_eq_true]
  refine ⟨c, hc, ?_⟩
  subst hopts
  unfold swapOpts at hlen
  cases hl : SWAP_MAP.lookup c with
  | none => simp [hl] at hlen
  | some l => simp [hl]

/-- Claim C6: `generate_variants` never returns the original word, returns at
most 64 candidates, every candidate strictly gains diacritic characters, and
a word with more than 6 swappable positions, or with none at all, yields no
candidates. -/
theorem claim_C6 (word : Str) :
    word ∉ generate_variants word ∧
      (generate_variants word).length ≤ 64 ∧
      (∀ v ∈ generate_variants word,
        count_diacritics v > count_diacritics word) ∧
      (swappable word > 6 → generate_variants word = []) ∧
      (¬ word.any (fun c => (SWAP_MAP.lookup c).isSome) = true →
        generate_variants word = []) := by
  refine ⟨?_, ?_, ?_, ?_, ?_⟩
  · unfold generate_variants
    by_cases h1 : ¬ word.any (fun c => (SWAP_MAP.lookup c).isSome) = true
    · simp [h1]
    · rw [if_neg (by simpa using h1)]
      by_cases h2 : swappable word > 6
      · simp [h2]
      · rw [if_neg h2]
        exact genLoop_not_mem word _ _ 0
  · unfold generate_variants
    by_cases h1 : ¬ word.any (fun c => (SWAP_MAP.lookup c).isSome) = true
    · simp [h1]
    · rw [if_neg (by simpa using h1)]
      by_cases h2 : swappable word > 6
      · simp [h2]
      · rw [if_neg h2]
        have := genLoop_length word (count_diacritics word)
          (prodLists (word.map swapOpts)) 0 (by omega)
        omega
  · intro v hv
    unfold generate_variants at hv
    by_cases h1 : ¬ word.any (fun c => (SWAP_MAP.lookup c).isSome) = true
    · simp [h1] at hv
    · rw [if_neg (by simpa using h1)] at hv
      by_cases h2 : swappable word > 6
      · simp [h2] at hv
      · rw [if_neg h2] at hv
        exact genLoop_dc word _ _ 0 v hv
  · intro h2
    unfold generate_variants
    have h1 : word.any (fun c => (SWAP_MAP.lookup c).isSome) = true :=
      swappable_pos_any word (by omega)
    rw [if_neg (by simpa using h1), if_pos h2]
  · intro h1
    simp [generate_variants, h1]

/-- Witness for C6: a word with seven swappable positions and a word with no
swappable letter both yield no candidates. -/
theorem claim_C6_witness :
    generate_variants (str "cgiosuc") = [] ∧ generate_variants (str "xyz") = [] :=
  ⟨(claim_C6 (str "cgiosuc")).2.2.2.1 (by decide),
   (claim_C6 (str "xyz")).2.2.2.2 (by decide)⟩

/-!  ## Diacritic counting (analysis device towards C5 and C7)

The six lower-case folded letters that diacritic characters can produce; a
word none of whose characters is a `SWAP_MAP` key has exactly as many of them
(after folding and lowering) as it has diacritics, while an arbitrary string
has at least as many, which bounds the diacritic gain of any suggestion whose
folded lower-case form agrees. -/

def ELIG6 : List Char := ['c', 'g', 'i', 'o', 's', 'u']

def eligCount (s : Str) : Nat := s.countP (fun c => decide (c ∈ ELIG6))

theorem eligCount_append (a b : Str) :
    eligCount (a ++ b) = eligCount a + eligCount b := by
  simp [eligCount, List.countP_append]

theorem dcChar_le (c : Char) :
    (if (DIACRITICS_MAP.lookup c).isSome then 1 else 0) ≤
      eligCount (pyLowerChar (foldChar c)) := by
  cases hl : DIACRITICS_MAP.lookup c with
  | none => simp [hl]
  | some a =>
    have hmem := lookup_mem _ _ _ hl
    fin_cases hmem <;> decide

theorem dcChar_eq_of_not_swap (c : Char)
    (hsw : ¬ (SWAP_MAP.lookup c).isSome = true) :
    eligCount (pyLowerChar (foldChar c)) =
      (if (DIACRITICS_MAP.lookup c).isSome then 1 else 0) := by
  cases hl : DIACRITICS_MAP.lookup c with
  | some a =>
    have hmem := lookup_mem _ _ _ hl
    fin_cases hmem <;> decide
  | none =>
    have hfold : foldChar c = c := by simp [foldChar, hl]
    rw [hfold]
    simp only [Option.isSome_none, Bool.false_eq_true, if_false]
    unfold pyLowerChar
    by_cases hi : c = 'İ'
    · exact absurd hl (by subst hi; decide)
    · rw [if_neg hi]
      cases hal : ASCII_LOWER.lookup c with
      | some l =>
        have hmem := lookup_mem _ _ _ hal
        fin_cases hmem <;>
          first
          | decide
          | exact absurd (by decide) hsw
      | none =>
        by_cases h1 : c = 'Ç'
        · exact absurd hl (by subst h1; decide)
        · rw [if_neg h1]
          by_cases h2 : c = 'Ğ'
          · exact absurd hl (by subst h2; decide)
          · rw [if_neg h2]
            by_cases h3 : c = 'Ö'
            · exact absurd hl (by subst h3; decide)
            · rw [if_neg h3]
              by_cases h4 : c = 'Ş'
              · exact absurd hl (by subst h4; decide)
              · rw [if_neg h4]
                by_cases h5 : c = 'Ü'
                · exact absurd hl (by subst h5; decide)
                · rw [if_neg h5]
                  by_cases hc : c ∈ ELIG6
                  · fin_cases hc <;> exact absurd (by decide) hsw
                  · simp [eligCount, hc]

theorem dc_le_eligCount (s : Str) :
    count_diacritics s ≤ eligCount (pyLower (ascii_fold s)) := by
  induction s with
  | nil => simp [count_diacritics, eligCount, pyLower, ascii_fold]
  | cons c rest ih =>
    have hsplit : pyLower (ascii_fold (c :: rest)) =
        pyLowerChar (foldChar c) ++ pyLower (ascii_fold rest) := by
      simp [pyLower, ascii_fold]
    rw [hsplit, eligCount_append]
    have hc := dcChar_le c
    simp only [count_diacritics, List.countP_cons] at *
    by_cases hd : (DIACRITICS_MAP.lookup c).isSome = true <;> simp [hd] at hc ⊢ <;> omega

theorem dc_eq_eligCount (s : Str)
    (h : ∀ c ∈ s, ¬ (SWAP_MAP.lookup c).isSome = true) :
    eligCount (pyLower (ascii_fold s)) = count_diacritics s := by
  induction s with
  | nil => simp [count_diacritics, eligCount, pyLower, ascii_fold]
  | cons c rest ih =>
    have hsplit : pyLower (ascii_fold (c :: rest)) =
        pyLowerChar (foldChar c) ++ pyLower (ascii_fold rest) := by
      simp [pyLower, ascii_fold]
    rw [hsplit, eligCount_append]
    have hc := dcChar_eq_of_not_swap c (h c (List.mem_cons_self c rest))
    have hrest := ih (fun d hd => h d (List.mem_cons_of_mem c hd))
    simp only [count_diacritics, List.countP_cons] at *
    by_cases hd : (DIACRITICS_MAP.lookup c).isSome = true <;>
      simp [hd] at hc ⊢ <;> omega

/-- A successful Layer 1 suggestion forces the word to contain a `SWAP_MAP`
letter: the suggestion folds and lowers to the same string, so its diacritic
count is bounded by the word's unless the word has swappable letters. -/
theorem layer1_go_elig (w : Str) : ∀ (l : List Str) (s : Str),
    layer1_go w l = some s →
      w.any (fun c => (SWAP_MAP.lookup c).isSome) = true := by
  intro l
  induction l with
  | nil => intro s h; simp [layer1_go] at h
  | cons x rest ih =>
    intro s h
    rw [layer1_go] at h
    by_cases hq : pyLower (ascii_fold x) = pyLower (ascii_fold w) ∧
        pyLower x ≠ pyLower w ∧ count_diacritics x > count_diacritics w
    · rw [if_pos hq] at h
      by_contra hno
      have hall : ∀ c ∈ w, ¬ (SWAP_MAP.lookup c).isSome = true := by
        intro c hc
        intro habs
        exact hno (List.any_eq_true.mpr ⟨c, hc, habs⟩)
      have h1 := dc_le_eligCount x
      have h2 := dc_eq_eligCount w hall
      rw [hq.1, h2] at h1
      omega
    · rw [if_neg hq] at h
      exact ih s h

/-!  ## Invariants of the three passes -/

theorem pass1go_findings (whitelist : List Str) (wloc : List (Str × List Nat)) :
    ∀ (ms : List (Str × List Str)) (seen : List Str) (f : Finding),
      f ∈ (pass1go whitelist wloc ms seen).1 →
        f.layer = 1 ∧ f.confidence = str "high" ∧
          (∃ sg, layer1_suggestion f.word sg = some f.correction) ∧
          f.word.any (fun c => (SWAP_MAP.lookup c).isSome) = true := by
  intro ms
  induction ms with
  | nil => intro seen f hf; simp [pass1go] at hf
  | cons p rest ih =>
    obtain ⟨word, suggestions⟩ := p
    intro seen f hf
    rw [pass1go] at hf
    by_cases h1 : pyLower word ∈ seen ∨ word.length < 3
    · rw [if_pos h1] at hf; exact ih seen f hf
    · rw [if_neg h1] at hf
      by_cases h2 : is_identifier word = true ∨ pyLower word ∈ whitelist
      · rw [if_pos h2] at hf; exact ih seen f hf
      · rw [if_neg h2] at hf
        cases hls : layer1_suggestion word suggestions with
        | some correction =>
          rw [hls] at hf
          simp only [List.mem_cons] at hf
          rcases hf with rfl | hf
          · exact ⟨rfl, rfl, ⟨suggestions, hls⟩,
              layer1_go_elig word suggestions correction hls⟩
          · exact ih _ f hf
        | none =>
          rw [hls] at hf
          by_cases h3 : generate_variants word = []
          · rw [if_pos h3] at hf; exact ih seen f hf
          · rw [if_neg h3] at hf; exact ih seen f hf

theorem pass1go_seen (whitelist : List Str) (wloc : List (Str × List Nat)) :
    ∀ (ms : List (Str × List Str)) (seen : List Str),
      (pass1go whitelist wloc ms seen).2.1 =
          ((pass1go whitelist wloc ms seen).1.map
            (fun f => pyLower f.word)).reverse ++ seen ∧
        ((pass1go whitelist wloc ms seen).1.map (fun f => pyLower f.word)).Nodup ∧
        (∀ x ∈ (pass1go whitelist wloc ms seen).1.map (fun f => pyLower f.word),
          x ∉ seen) := by
  intro ms
  induction ms with
  | nil => intro seen; simp [pass1go]
  | cons p rest ih =>
    obtain ⟨word, suggestions⟩ := p
    intro seen
    rw [pass1go]
    by_cases h1 : pyLower word ∈ seen ∨ word.length < 3
    · rw [if_pos h1]; exact ih seen
    · rw [if_neg h1]
      by_cases h2 : is_identifier word = true ∨ pyLower word ∈ whitelist
      · rw [if_pos h2]; exact ih seen
      · rw [if_neg h2]
        cases hls : layer1_suggestion word suggestions with
        | some correction =>
          obtain ⟨he, hnd, hdis⟩ := ih (pyLower word :: seen)
          refine ⟨?_, ?_, ?_⟩
          · simp [he]
          · simp only [List.map_cons, List.nodup_cons]
            refine ⟨fun hmem => ?_, hnd⟩
            exact (hdis _ hmem) (List.mem_cons_self _ _)
          · intro x hx
            simp only [List.map_cons, List.mem_cons] at hx
            rcases hx with rfl | hx
            · intro habs; exact h1 (Or.inl habs)
            · intro habs
              exact (hdis x hx) (List.mem_cons_of_mem _ habs)
        | none =>
          by_cases h3 : generate_variants word = []
          · rw [if_pos h3]; exact ih seen
          · rw [if_neg h3]; exact ih seen

theorem pass1go_cands (whitelist : List Str) (wloc : List (Str × List Nat)) :
    ∀ (ms : List (Str × List Str)) (seen : List Str) (p : Str × List Str),
      p ∈ (pass1go whitelist wloc ms seen).2.2 →
        p.2 = generate_variants p.1 ∧ p.2 ≠ [] := by
  intro ms
  induction ms with
  | nil => intro seen p hp; simp [pass1go] at hp
  | cons q rest ih =>
    obtain ⟨word, suggestions⟩ := q
    intro seen p hp
    rw [pass1go] at hp
    by_cases h1 : pyLower word ∈ seen ∨ word.length < 3
    · rw [if_pos h1] at hp; exact ih seen p hp
    · rw [if_neg h1] at hp
      by_cases h2 : is_identifier word = true ∨ pyLower word ∈ whitelist
      · rw [if_pos h2] at hp; exact ih seen p hp
      · rw [if_neg h2] at hp
        cases hls : layer1_suggestion word suggestions with
        | some correction =>
          rw [hls] at hp
          exact ih _ p hp
        | none =>
          rw [hls] at hp
          by_cases h3 : generate_variants word = []
          · rw [if_pos h3] at hp; exact ih seen p hp
          · rw [if_neg h3] at hp
            simp only [List.mem_cons] at hp
            rcases hp with rfl | hp
            · exact ⟨rfl, h3⟩
            · exact ih seen p hp

theorem pass2go_findings (wloc : List (Str × List Nat)) :
    ∀ (wv : List (Str × List Str)) (seen : List Str) (f : Finding),
      f ∈ (pass2go wloc wv seen).1 →
        f.layer = 2 ∧ f.confidence = str "high" ∧ f.word ∈ wv.map Prod.fst := by
  intro wv
  induction wv with
  | nil => intro seen f hf; simp [pass2go] at hf
  | cons p rest ih =>
    obtain ⟨word, valid_list⟩ := p
    intro seen f hf
    rw [pass2go] at hf
    by_cases h1 : pyLower word ∈ seen
    · rw [if_pos h1] at hf
      obtain ⟨ha, hb, hc⟩ := ih seen f hf
      exact ⟨ha, hb, List.mem_cons_of_mem _ hc⟩
    · rw [if_neg h1] at hf
      simp only [List.mem_cons] at hf
      rcases hf with rfl | hf
      · exact ⟨rfl, rfl, by simp⟩
      · obtain ⟨ha, hb, hc⟩ := ih _ f hf
        exact ⟨ha, hb, List.mem_cons_of_mem _ hc⟩

theorem pass2go_seen (wloc : List (Str × List Nat)) :
    ∀ (wv : List (Str × List Str)) (seen : List Str),
      (pass2go wloc wv seen).2 =
          ((pass2go wloc wv seen).1.map (fun f => pyLower f.word)).reverse ++ seen ∧
        ((pass2go wloc wv seen).1.map (fun f => pyLower f.word)).Nodup ∧
        (∀ x ∈ (pass2go wloc wv seen).1.map (fun f => pyLower f.word), x ∉ seen) := by
  intro wv
  induction wv with
  | nil => intro seen; simp [pass2go]
  | cons p rest ih =>
    obtain ⟨word, valid_list⟩ := p
    intro seen
    rw [pass2go]
    by_cases h1 : pyLower word ∈ seen
    · rw [if_pos h1]; exact ih seen
    · rw [if_neg h1]
      obtain ⟨he, hnd, hdis⟩ := ih (pyLower word :: seen)
      refine ⟨?_, ?_, ?_⟩
      · simp [he]
      · simp only [List.map_cons, List.nodup_cons]
        exact ⟨fun hmem => (hdis _ hmem) (List.mem_cons_self _ _), hnd⟩
      · intro x hx
        simp only [List.map_cons, List.mem_cons] at hx
        rcases hx with rfl | hx
        · exact h1
        · intro habs
          exact (hdis x hx) (List.mem_cons_of_mem _ habs)

theorem pass3go_findings (amb_lookup : List (Str × Str))
    (amb_skip whitelist misspKeys : List Str) (wloc : List (Str × List Nat)) :
    ∀ (words seen : List Str) (count : Nat) (f : Finding),
      f ∈ pass3go amb_lookup amb_skip whitelist misspKeys wloc words seen count →
        f.layer = 3 ∧ f.confidence = str "medium" ∧ f.word ∉ misspKeys ∧
          f.word.any (fun c => (SWAP_MAP.lookup c).isSome) = true := by
  intro words
  induction words with
  | nil => intro seen count f hf; simp [pass3go] at hf
  | cons word rest ih =>
    intro seen count f hf
    rw [pass3go] at hf
    by_cases h1 : pyLower word ∈ seen
    · rw [if_pos h1] at hf; exact ih seen count f hf
    · rw [if_neg h1] at hf
      by_cases h2 : is_identifier word = true ∨ word.length < 3
      · rw [if_pos h2] at hf; exact ih seen count f hf
      · rw [if_neg h2] at hf
        by_cases h3 : ¬ word.any (fun c => (SWAP_MAP.lookup c).isSome)
        · rw [if_pos h3] at hf; exact ih seen count f hf
        · rw [if_neg h3] at hf
          by_cases h4 : word ∈ misspKeys
          · rw [if_pos h4] at hf; exact ih seen count f hf
          · rw [if_neg h4] at hf
            cases hla : layer3_ambiguity word amb_lookup amb_skip whitelist with
            | some correction =>
              rw [hla] at hf
              simp only [] at hf
              by_cases h5 : correction ≠ [] ∧ pyLower correction ≠ pyLower word
              · rw [if_pos h5] at hf
                by_cases h6 : count + 1 ≥ 15
                · rw [if_pos h6] at hf
                  simp only [List.mem_singleton] at hf
                  subst hf
                  exact ⟨rfl, rfl, h4, by simpa using h3⟩
                · rw [if_neg h6] at hf
                  simp only [List.mem_cons] at hf
                  rcases hf with rfl | hf
                  · exact ⟨rfl, rfl, h4, by simpa using h3⟩
                  · exact ih _ _ f hf
              · rw [if_neg h5] at hf; exact ih seen count f hf
            | none =>
              rw [hla] at hf; exact ih seen count f hf

theorem pass3go_seen (amb_lookup : List (Str × Str))
    (amb_skip whitelist misspKeys : List Str) (wloc : List (Str × List Nat)) :
    ∀ (words seen : List Str) (count : Nat),
      ((pass3go amb_lookup amb_skip whitelist misspKeys wloc words seen count).map
          (fun f => pyLower f.word)).Nodup ∧
        (∀ x ∈ (pass3go amb_lookup amb_skip whitelist misspKeys wloc words seen
            count).map (fun f => pyLower f.word), x ∉ seen) := by
  intro words
  induction words with
  | nil => intro seen count; simp [pass3go]
  | cons word rest ih =>
    intro seen count
    rw [pass3go]
    by_cases h1 : pyLower word ∈ seen
    · rw [if_pos h1]; exact ih seen count
    · rw [if_neg h1]
      by_cases h2 : is_identifier word = true ∨ word.length < 3
      · rw [if_pos h2]; exact ih seen count
      · rw [if_neg h2]
        by_cases h3 : ¬ word.any (fun c => (SWAP_MAP.lookup c).isSome)
        · rw [if_pos h3]; exact ih seen count
        · rw [if_neg h3]
          by_cases h4 : word ∈ misspKeys
          · rw [if_pos h4]; exact ih seen count
          · rw [if_neg h4]
            cases hla : layer3_ambiguity word amb_lookup amb_skip whitelist with
            | some correction =>
              simp only []
              by_cases h5 : correction ≠ [] ∧ pyLower correction ≠ pyLower word
              · rw [if_pos h5]
                by_cases h6 : count + 1 ≥ 15
                · rw [if_pos h6]
                  refine ⟨by simp, ?_⟩
                  intro x hx
                  simp only [List.map_cons, List.map_nil, List.mem_singleton] at hx
                  subst hx
                  exact h1
                · rw [if_neg h6]
                  obtain ⟨hnd, hdis⟩ := ih (pyLower word :: seen) (count + 1)
                  refine ⟨?_, ?_⟩
                  · simp only [List.map_cons, List.nodup_cons]
                    exact ⟨fun hmem => (hdis _ hmem) (List.mem_cons_self _ _), hnd⟩
                  · intro x hx
                    simp only [List.map_cons, List.mem_cons] at hx
                    rcases hx with rfl | hx
                    · exact h1
                    · intro habs
                      exact (hdis x hx) (List.mem_cons_of_mem _ habs)
              · rw [if_neg h5]; exact ih seen count
            | none => exact ih seen count

theorem pass3go_sublist (amb_lookup : List (Str × Str))
    (amb_skip whitelist misspKeys : List Str) (wloc : List (Str × List Nat)) :
    ∀ (words seen : List Str) (count : Nat),
      List.Sublist
        ((pass3go amb_lookup amb_skip whitelist misspKeys wloc words seen count).map
          (fun f => f.word)) words := by
  intro words
  induction words with
  | nil => intro seen count; simp [pass3go]
  | cons word rest ih =>
    intro seen count
    rw [pass3go]
    by_cases h1 : pyLower word ∈ seen
    · rw [if_pos h1]; exact (ih seen count).trans (List.sublist_cons_self _ _)
    · rw [if_neg h1]
      by_cases h2 : is_identifier word = true ∨ word.length < 3
      · rw [if_pos h2]; exact (ih seen count).trans (List.sublist_cons_self _ _)
      · rw [if_neg h2]
        by_cases h3 : ¬ word.any (fun c => (SWAP_MAP.lookup c).isSome)
        · rw [if_pos h3]; exact (ih seen count).trans (List.sublist_cons_self _ _)
        · rw [if_neg h3]
          by_cases h4 : word ∈ misspKeys
          · rw [if_pos h4]; exact (ih seen count).trans (List.sublist_cons_self _ _)
          · rw [if_neg h4]
            cases hla : layer3_ambiguity word amb_lookup amb_skip whitelist with
            | some correction =>
              simp only []
              by_cases h5 : correction ≠ [] ∧ pyLower correction ≠ pyLower word
              · rw [if_pos h5]
                by_cases h6 : count + 1 ≥ 15
                · rw [if_pos h6]
                  simp
                · rw [if_neg h6]
                  simpa using List.Sublist.cons₂ word (ih _ (count + 1))
              · rw [if_neg h5]
                exact (ih seen count).trans (List.sublist_cons_self _ _)
            | none => exact (ih seen count).trans (List.sublist_cons_self _ _)

theorem pass3go_length (amb_lookup : List (Str × Str))
    (amb_skip whitelist misspKeys : List Str) (wloc : List (Str × List Nat)) :
    ∀ (words seen : List Str) (count : Nat), count ≤ 14 →
      (pass3go amb_lookup amb_skip whitelist misspKeys wloc words seen
        count).length ≤ 15 - count := by
  intro words
  induction words with
  | nil => intro seen count _; simp [pass3go]
  | cons word rest ih =>
    intro seen count hcount
    rw [pass3go]
    by_cases h1 : pyLower word ∈ seen
    · rw [if_pos h1]; exact ih seen count hcount
    · rw [if_neg h1]
      by_cases h2 : is_identifier word = true ∨ word.length < 3
      · rw [if_pos h2]; exact ih seen count hcount
      · rw [if_neg h2]
        by_cases h3 : ¬ word.any (fun c => (SWAP_MAP.lookup c).isSome)
        · rw [if_pos h3]; exact ih seen count hcount
        · rw [if_neg h3]
          by_cases h4 : word ∈ misspKeys
          · rw [if_pos h4]; exact ih seen count hcount
          · rw [if_neg h4]
            cases hla : layer3_ambiguity word amb_lookup amb_skip whitelist with
            | some correction =>
              simp only []
              by_cases h5 : correction ≠ [] ∧ pyLower correction ≠ pyLower word
              · rw [if_pos h5]
                by_cases h6 : count + 1 ≥ 15
                · rw [if_pos h6]
                  simp only [List.length_singleton]
                  omega
                · rw [if_neg h6]
                  have := ih (pyLower word :: seen) (count + 1) (by omega)
                  simp only [List.length_cons]
                  omega
              · rw [if_neg h5]; exact ih seen count hcount
            | none => exact ih seen count hcount

/-!  ## Scan-level dedup structure -/

theorem scanPass1_seen_mem (o : Oracle) (content : Str) (whitelist : List Str) :
    ∀ x, x ∈ (scanPass1 o content whitelist).2.1 ↔
      x ∈ (scanPass1 o content whitelist).1.map (fun f => pyLower f.word) := by
  intro x
  obtain ⟨he, _, _⟩ := pass1go_seen whitelist (scanWloc content)
    (scanMissp o content) []
  rw [scanPass1, he]
  simp

theorem scanPass2_seen_mem (o : Oracle) (content : Str) (whitelist : List Str) :
    ∀ x, x ∈ (scanPass2 o content whitelist).2 ↔
      (x ∈ (scanPass2 o content whitelist).1.map (fun f => pyLower f.word) ∨
        x ∈ (scanPass1 o content whitelist).1.map (fun f => pyLower f.word)) := by
  intro x
  rw [scanPass2]
  by_cases hc : scanCands o content whitelist = []
  · rw [if_pos hc]
    simp [scanPass1_seen_mem o content whitelist x]
  · rw [if_neg hc]
    obtain ⟨he, _, _⟩ := pass2go_seen (scanWloc content)
      (scanWordValid o content whitelist) (scanPass1 o content whitelist).2.1
    rw [he]
    simp [scanPass1_seen_mem o content whitelist x, or_comm]

theorem scan_nodup_lower (o : Oracle) (content : Str) (whitelist : List Str)
    (amb_lookup : List (Str × Str)) (amb_skip : List Str) :
    ((scan o content whitelist amb_lookup amb_skip).findings.map
      (fun f => pyLower f.word)).Nodup := by
  have hsplit : (scan o content whitelist amb_lookup amb_skip).findings =
      (scanPass1 o content whitelist).1 ++ ((scanPass2 o content whitelist).1 ++
        scanPass3 o content whitelist amb_lookup amb_skip) := by
    simp [scan]
  rw [hsplit]
  obtain ⟨_, hnd1, _⟩ := pass1go_seen whitelist (scanWloc content)
    (scanMissp o content) []
  have hnd2 : ((scanPass2 o content whitelist).1.map
      (fun f => pyLower f.word)).Nodup := by
    rw [scanPass2]
    by_cases hc : scanCands o content whitelist = []
    · rw [if_pos hc]; simp
    · rw [if_neg hc]
      exact (pass2go_seen (scanWloc content) (scanWordValid o content whitelist)
        (scanPass1 o content whitelist).2.1).2.1
  have hdis2 : ∀ x ∈ (scanPass2 o content whitelist).1.map
      (fun f => pyLower f.word),
      x ∉ (scanPass1 o content whitelist).1.map (fun f => pyLower f.word) := by
    rw [scanPass2]
    by_cases hc : scanCands o content whitelist = []
    · rw [if_pos hc]; simp
    · rw [if_neg hc]
      intro x hx
      have := (pass2go_seen (scanWloc content) (scanWordValid o content whitelist)
        (scanPass1 o content whitelist).2.1).2.2 x hx
      intro habs
      exact this ((scanPass1_seen_mem o content whitelist x).mpr habs)
  obtain ⟨hnd3, hdis3⟩ := pass3go_seen amb_lookup amb_skip whitelist
    ((scanMissp o content).map Prod.fst) (scanWloc content)
    (scanSorted content) (scanPass2 o content whitelist).2 0
  have hdis3' : ∀ x ∈ (scanPass3 o content whitelist amb_lookup amb_skip).map
      (fun f => pyLower f.word),
      x ∉ (scanPass1 o content whitelist).1.map (fun f => pyLower f.word) ∧
        x ∉ (scanPass2 o content whitelist).1.map (fun f => pyLower f.word) := by
    intro x hx
    have hnot := hdis3 x hx
    constructor
    · intro habs
      exact hnot ((scanPass2_seen_mem o content whitelist x).mpr (Or.inr habs))
    · intro habs
      exact hnot ((scanPass2_seen_mem o content whitelist x).mpr (Or.inl habs))
  rw [List.map_append, List.map_append, List.nodup_append]
  refine ⟨hnd1, ?_, ?_⟩
  · rw [List.nodup_append]
    refine ⟨hnd2, hnd3, ?_⟩
    intro x hx habs
    exact ((hdis3' x habs).2) hx
  · intro x hx
    rw [List.mem_append]
    rintro (habs | habs)
    · exact (hdis2 x habs) hx
    · exact (hdis3' x habs).1 hx

/-- Claim C4: the findings list splits into the three layer segments in
precedence order 1, 2, 3, and every case-insensitive word form is claimed by
at most one finding in the whole scan. -/
theorem claim_C4 (o : Oracle) (content : Str) (whitelist : List Str)
    (amb_lookup : List (Str × Str)) (amb_skip : List Str) :
    ∃ e1 e2 e3 : List Finding,
      (scan o content whitelist amb_lookup amb_skip).findings = e1 ++ e2 ++ e3 ∧
        (∀ f ∈ e1, f.layer = 1) ∧ (∀ f ∈ e2, f.layer = 2) ∧
        (∀ f ∈ e3, f.layer = 3) ∧
        ((scan o content whitelist amb_lookup amb_skip).findings.map
          (fun f => pyLower f.word)).Nodup := by
  refine ⟨(scanPass1 o content whitelist).1, (scanPass2 o content whitelist).1,
    scanPass3 o content whitelist amb_lookup amb_skip, rfl, ?_, ?_, ?_,
    scan_nodup_lower o content whitelist amb_lookup amb_skip⟩
  · intro f hf
    exact (pass1go_findings whitelist (scanWloc content) (scanMissp o content)
      [] f hf).1
  · intro f hf
    rw [scanPass2] at hf
    by_cases hc : scanCands o content whitelist = []
    · rw [if_pos hc] at hf; simp at hf
    · rw [if_neg hc] at hf
      exact (pass2go_findings (scanWloc content)
        (scanWordValid o content whitelist)
        (scanPass1 o content whitelist).2.1 f hf).1
  · intro f hf
    exact (pass3go_findings amb_lookup amb_skip whitelist
      ((scanMissp o content).map Prod.fst) (scanWloc content)
      (scanSorted content) (scanPass2 o content whitelist).2 0 f hf).1

/-- Witness for C4 at a concrete scan. -/
theorem claim_C4_witness :
    ∃ e1 e2 e3 : List Finding,
      (scan ⟨fun _ => [(str "ornek", [str "örnek"])], fun l => l⟩
          (str "Bu bir ornek metindir") [] [] []).findings = e1 ++ e2 ++ e3 ∧
        (∀ f ∈ e1, f.layer = 1) ∧ (∀ f ∈ e2, f.layer = 2) ∧
        (∀ f ∈ e3, f.layer = 3) ∧
        ((scan ⟨fun _ => [(str "ornek", [str "örnek"])], fun l => l⟩
            (str "Bu bir ornek metindir") [] [] []).findings.map
          (fun f => pyLower f.word)).Nodup :=
  claim_C4 ⟨fun _ => [(str "ornek", [str "örnek"])], fun l => l⟩
    (str "Bu bir ornek metindir") [] [] []

/-!  ## Claim C5: Layer 1 suggestion selection -/

/-- The qualifying condition of `layer1_suggestion` for a suggestion `t`
against a word `w` (proof device, stating the loop's guard). -/
def l1Q (w t : Str) : Prop :=
  pyLower (ascii_fold t) = pyLower (ascii_fold w) ∧ pyLower t ≠ pyLower w ∧
    count_diacritics t > count_diacritics w

theorem layer1_go_some_iff (w : Str) : ∀ (l : List Str) (s : Str),
    layer1_go w l = some s ↔
      ∃ p q, l = p ++ s :: q ∧ l1Q w s ∧ ∀ t ∈ p, ¬ l1Q w t := by
  intro l
  induction l with
  | nil =>
    intro s
    constructor
    · intro h; simp [layer1_go] at h
    · rintro ⟨p, q, hpq, -⟩
      exact absurd hpq (by simp)
  | cons x rest ih =>
    intro s
    rw [layer1_go]
    by_cases hq : pyLower (ascii_fold x) = pyLower (ascii_fold w) ∧
        pyLower x ≠ pyLower w ∧ count_diacritics x > count_diacritics w
    · rw [if_pos hq]
      constructor
      · intro h
        have hxs : x = s := by simpa using h
        subst hxs
        exact ⟨[], rest, rfl, hq, by simp⟩
      · rintro ⟨p, q, hpq, hs, hnot⟩
        cases p with
        | nil =>
          simp only [List.nil_append, List.cons.injEq] at hpq
          exact congrArg some hpq.1
        | cons y p' =>
          simp only [List.cons_append, List.cons.injEq] at hpq
          have : ¬ l1Q w y := hnot y (List.mem_cons_self _ _)
          rw [← hpq.1] at this
          exact absurd hq this
    · rw [if_neg hq]
      constructor
      · intro h
        obtain ⟨p, q, hpq, hs, hnot⟩ := (ih s).mp h
        refine ⟨x :: p, q, by simp [hpq], hs, ?_⟩
        intro t ht
        rcases List.mem_cons.mp ht with rfl | ht
        · exact hq
        · exact hnot t ht
      · rintro ⟨p, q, hpq, hs, hnot⟩
        cases p with
        | nil =>
          simp only [List.nil_append, List.cons.injEq] at hpq
          rw [← hpq.1] at hs
          exact absurd hs hq
        | cons y p' =>
          simp only [List.cons_append, List.cons.injEq] at hpq
          refine (ih s).mpr ⟨p', q, hpq.2, hs, ?_⟩
          intro t ht
          exact hnot t (List.mem_cons_of_mem _ ht)

theorem layer1_go_none_iff (w : Str) : ∀ l : List Str,
    layer1_go w l = none ↔ ∀ t ∈ l, ¬ l1Q w t := by
  intro l
  induction l with
  | nil => simp [layer1_go]
  | cons x rest ih =>
    rw [layer1_go]
    by_cases hq : pyLower (ascii_fold x) = pyLower (ascii_fold w) ∧
        pyLower x ≠ pyLower w ∧ count_diacritics x > count_diacritics w
    · rw [if_pos hq]
      constructor
      · intro h; cases h
      · intro h
        exact absurd hq (h x (List.mem_cons_self _ _))
    · rw [if_neg hq]
      rw [ih]
      constructor
      · intro h t ht
        rcases List.mem_cons.mp ht with rfl | ht
        · exact hq
        · exact h t ht
      · intro h t ht
        exact h t (List.mem_cons_of_mem _ ht)

/-- Claim C5: `layer1_suggestion` returns exactly the first suggestion, in the
oracle's order, whose ASCII-folded lower-case form matches the word's, which
differs case-insensitively from the word, and which strictly increases the
diacritic count; it returns nothing when no suggestion qualifies; and every
Layer 1 finding of a scan has confidence high. -/
theorem claim_C5 :
    (∀ w sugg s, layer1_suggestion w sugg = some s ↔
        ∃ p q, sugg = p ++ s :: q ∧ l1Q w s ∧ ∀ t ∈ p, ¬ l1Q w t) ∧
      (∀ w sugg, layer1_suggestion w sugg = none ↔ ∀ t ∈ sugg, ¬ l1Q w t) ∧
      (∀ (o : Oracle) (content : Str) (whitelist : List Str)
          (amb_lookup : List (Str × Str)) (amb_skip : List Str) (f : Finding),
        f ∈ (scan o content whitelist amb_lookup amb_skip).findings →
        f.layer = 1 → f.confidence = str "high") := by
  refine ⟨fun w sugg s => layer1_go_some_iff w sugg s,
    fun w sugg => layer1_go_none_iff w sugg, ?_⟩
  intro o content whitelist amb_lookup amb_skip f hf hl
  have hsplit : (scan o content whitelist amb_lookup amb_skip).findings =
      (scanPass1 o content whitelist).1 ++ ((scanPass2 o content whitelist).1 ++
        scanPass3 o content whitelist amb_lookup amb_skip) := by
    simp [scan]
  rw [hsplit, List.mem_append, List.mem_append] at hf
  rcases hf with hf | hf | hf
  · exact (pass1go_findings whitelist (scanWloc content) (scanMissp o content)
      [] f hf).2.1
  · exfalso
    have h2 : f.layer = 2 := by
      rw [scanPass2] at hf
      by_cases hc : scanCands o content whitelist = []
      · rw [if_pos hc] at hf; simp at hf
      · rw [if_neg hc] at hf
        exact (pass2go_findings (scanWloc content)
          (scanWordValid o content whitelist)
          (scanPass1 o content whitelist).2.1 f hf).1
    omega
  · exfalso
    have h3 : f.layer = 3 := (pass3go_findings amb_lookup amb_skip whitelist
      ((scanMissp o content).map Prod.fst) (scanWloc content)
      (scanSorted content) (scanPass2 o content whitelist).2 0 f hf).1
    omega

/-- Witness for C5 at a concrete scan with a Layer 1 finding. -/
theorem claim_C5_witness :
    (⟨str "ornek", str "örnek", [1], str "high", 1⟩ : Finding).confidence =
      str "high" :=
  claim_C5.2.2 ⟨fun _ => [(str "ornek", [str "örnek"])], fun l => l⟩
    (str "Bu bir ornek metindir") [] [] []
    ⟨str "ornek", str "örnek", [1], str "high", 1⟩ (by decide) (by decide)

/-!  ## Claim C7: words with no diacritic-eligible letter are never claimed -/

theorem pdAppend_keys {α : Type} (d : List (Str × List α)) (k' : Str) (v : α)
    (k : Str) (h : k ∈ (pdAppend d k' v).map Prod.fst) :
    k ∈ d.map Prod.fst ∨ k = k' := by
  unfold pdAppend at h
  by_cases hd : d.any (fun p => p.1 = k')
  · rw [if_pos hd] at h
    left
    obtain ⟨p, hp, hk⟩ := List.mem_map.mp h
    obtain ⟨q, hq, hpq⟩ := List.mem_map.mp hp
    subst hpq
    by_cases hqk : q.1 = k'
    · rw [if_pos hqk] at hk
      exact List.mem_map.mpr ⟨q, hq, hk⟩
    · rw [if_neg hqk] at hk
      exact List.mem_map.mpr ⟨q, hq, hk⟩
  · rw [if_neg hd] at h
    simp only [List.map_append, List.mem_append, List.map_cons, List.map_nil,
      List.mem_singleton] at h
    rcases h with h | h
    · exact Or.inl h
    · exact Or.inr h

theorem word_valid_keys (v2w : List (Str × Str)) :
    ∀ (venum : List Str) (d : List (Str × List Str)) (k : Str),
      k ∈ ((venum.foldl
          (fun d v =>
            match v2w.lookup v with
            | some src => pdAppend d src v
            | none => d) d)).map Prod.fst →
        k ∈ d.map Prod.fst ∨ k ∈ v2w.map Prod.snd := by
  intro venum
  induction venum with
  | nil => intro d k h; exact Or.inl h
  | cons v rest ih =>
    intro d k h
    rw [List.foldl_cons] at h
    cases hl : v2w.lookup v with
    | none =>
      rw [hl] at h
      exact ih d k h
    | some src =>
      rw [hl] at h
      rcases ih _ k h with h' | h'
      · rcases pdAppend_keys d src v k h' with h'' | h''
        · exact Or.inl h''
        · right
          subst h''
          exact List.mem_map.mpr ⟨(v, k), lookupS_mem v2w v k hl, rfl⟩
      · exact Or.inr h'

theorem pdSet_values {α : Type} (d : List (Str × α)) (k' : Str) (v : α)
    (x : α) (h : x ∈ (pdSet d k' v).map Prod.snd) :
    x ∈ d.map Prod.snd ∨ x = v := by
  unfold pdSet at h
  by_cases hd : d.any (fun p => p.1 = k')
  · rw [if_pos hd] at h
    obtain ⟨p, hp, hk⟩ := List.mem_map.mp h
    obtain ⟨q, hq, hpq⟩ := List.mem_map.mp hp
    subst hpq
    by_cases hqk : q.1 = k'
    · rw [if_pos hqk] at hk
      exact Or.inr hk.symm
    · rw [if_neg hqk] at hk
      exact Or.inl (List.mem_map.mpr ⟨q, hq, hk⟩)
  · rw [if_neg hd] at h
    simp only [List.map_append, List.mem_append, List.map_cons, List.map_nil,
      List.mem_singleton] at h
    exact h

theorem pdSet_foldl_values {α : Type} :
    ∀ (ps : List (Str × α)) (d : List (Str × α)) (x : α),
      x ∈ (ps.foldl (fun d q => pdSet d q.1 q.2) d).map Prod.snd →
        x ∈ d.map Prod.snd ∨ x ∈ ps.map Prod.snd := by
  intro ps
  induction ps with
  | nil => intro d x h; exact Or.inl h
  | cons q rest ih =>
    intro d x h
    rw [List.foldl_cons] at h
    rcases ih _ x h with h' | h'
    · rcases pdSet_values d q.1 q.2 x h' with h'' | h''
      · exact Or.inl h''
      · right
        subst h''
        rw [List.map_cons]
        exact List.mem_cons_self _ _
    · right
      rw [List.map_cons]
      exact List.mem_cons_of_mem _ h'

theorem variant_to_word_values (cands : List (Str × List Str)) (x : Str)
    (h : x ∈ (variant_to_word cands).map Prod.snd) :
    x ∈ cands.map Prod.fst := by
  unfold variant_to_word at h
  rcases pdSet_foldl_values _ [] x h with h' | h'
  · simp at h'
  · simp only [List.mem_map, List.mem_flatMap] at h'
    obtain ⟨q, ⟨p, hp, hq⟩, hx⟩ := h'
    obtain ⟨v, hv, hvq⟩ := hq
    subst hvq
    exact List.mem_map.mpr ⟨p, hp, hx⟩

/-- Claim C7: for a word with no ASCII letter that has a diacritic
counterpart, no layer of the pipeline ever produces a finding. -/
theorem claim_C7 (w : Str)
    (hw : ¬ w.any (fun c => (SWAP_MAP.lookup c).isSome) = true)
    (o : Oracle) (content : Str) (whitelist : List Str)
    (amb_lookup : List (Str × Str)) (amb_skip : List Str) (f : Finding)
    (hf : f ∈ (scan o content whitelist amb_lookup amb_skip).findings) :
    f.word ≠ w := by
  have helig : f.word.any (fun c => (SWAP_MAP.lookup c).isSome) = true := by
    have hsplit : (scan o content whitelist amb_lookup amb_skip).findings =
        (scanPass1 o content whitelist).1 ++ ((scanPass2 o content whitelist).1 ++
          scanPass3 o content whitelist amb_lookup amb_skip) := by
      simp [scan]
    rw [hsplit, List.mem_append, List.mem_append] at hf
    rcases hf with hf | hf | hf
    · exact (pass1go_findings whitelist (scanWloc content) (scanMissp o content)
        [] f hf).2.2.2
    · have hword : f.word ∈ (scanWordValid o content whitelist).map Prod.fst := by
        rw [scanPass2] at hf
        by_cases hc : scanCands o content whitelist = []
        · rw [if_pos hc] at hf; simp at hf
        · rw [if_neg hc] at hf
          exact (pass2go_findings (scanWloc content)
            (scanWordValid o content whitelist)
            (scanPass1 o content whitelist).2.1 f hf).2.2
      rw [scanWordValid] at hword
      unfold word_valid at hword
      rcases word_valid_keys _ _ _ _ hword with h' | h'
      · simp at h'
      · have hkey := variant_to_word_values _ _ h'
        obtain ⟨p, hp, hpk⟩ := List.mem_map.mp hkey
        obtain ⟨hgen, hne⟩ := pass1go_cands whitelist (scanWloc content)
          (scanMissp o content) [] p hp
        by_contra hno
        have : generate_variants p.1 = [] := by
          unfold generate_variants
          rw [if_pos]
          rw [hpk]
          exact hno
        rw [← hgen] at this
        exact hne this
    · exact (pass3go_findings amb_lookup amb_skip whitelist
        ((scanMissp o content).map Prod.fst) (scanWloc content)
        (scanSorted content) (scanPass2 o content whitelist).2 0 f hf).2.2.2
  intro habs
  rw [habs] at helig
  exact hw helig

/-- Witness for C7: the all-consonant word `xyz` is not the word of the
finding of a concrete scan. -/
theorem claim_C7_witness :
    (⟨str "ornek", str "örnek", [1], str "high", 1⟩ : Finding).word ≠ str "xyz" :=
  claim_C7 (str "xyz") (by decide)
    ⟨fun _ => [(str "ornek", [str "örnek"])], fun l => l⟩
    (str "Bu bir ornek metindir") [] [] []
    ⟨str "ornek", str "örnek", [1], str "high", 1⟩ (by decide)

/-!  ## Claim C8: Layer 3 discipline -/

/-- `strLe` as a relation (proof device). -/
def SLe (a b : Str) : Prop := strLe a b = true

theorem strLe_total : ∀ a b : Str, strLe a b = true ∨ strLe b a = true := by
  intro a
  induction a with
  | nil => intro b; left; rfl
  | cons x xs ih =>
    intro b
    cases b with
    | nil => right; rfl
    | cons y ys =>
      rcases lt_trichotomy x y with h | h | h
      · left; simp [strLe, h]
      · subst h
        rcases ih ys with h' | h'
        · left; simp [strLe, h']
        · right; simp [strLe, h']
      · right; simp [strLe, h]

theorem strLe_trans : ∀ a b c : Str,
    strLe a b = true → strLe b c = true → strLe a c = true := by
  intro a
  induction a with
  | nil => intro b c _ _; rfl
  | cons x xs ih =>
    intro b c hab hbc
    cases b with
    | nil => simp [strLe] at hab
    | cons y ys =>
      cases c with
      | nil => simp [strLe] at hbc
      | cons z zs =>
        simp only [strLe, Bool.or_eq_true, Bool.and_eq_true,
          decide_eq_true_eq] at hab hbc ⊢
        rcases hab with h1 | ⟨h1, h1'⟩
        · rcases hbc with h2 | ⟨h2, h2'⟩
          · exact Or.inl (h1.trans h2)
          · exact Or.inl (h2 ▸ h1)
        · subst h1
          rcases hbc with h2 | ⟨h2, h2'⟩
          · exact Or.inl h2
          · subst h2
            exact Or.inr ⟨rfl, ih ys zs h1' h2'⟩

theorem mem_insertSorted (x : Str) : ∀ (l : List Str) (z : Str),
    z ∈ insertSorted x l ↔ z = x ∨ z ∈ l := by
  intro l
  induction l with
  | nil => intro z; simp [insertSorted]
  | cons y ys ih =>
    intro z
    rw [insertSorted]
    by_cases h : strLe x y
    · rw [if_pos h]
      simp [or_comm, or_assoc, or_left_comm]
    · rw [if_neg h]
      simp only [List.mem_cons, ih]
      tauto

theorem pairwise_insertSorted (x : Str) : ∀ l : List Str,
    l.Pairwise SLe → (insertSorted x l).Pairwise SLe := by
  intro l
  induction l with
  | nil => intro _; simp [insertSorted, List.pairwise_singleton]
  | cons y ys ih =>
    intro hp
    rw [List.pairwise_cons] at hp
    obtain ⟨hy, hys⟩ := hp
    rw [insertSorted]
    by_cases h : strLe x y
    · rw [if_pos h]
      rw [List.pairwise_cons]
      constructor
      · intro z hz
        rcases List.mem_cons.mp hz with rfl | hz
        · exact h
        · exact strLe_trans x y z h (hy z hz)
      · rw [List.pairwise_cons]
        exact ⟨hy, hys⟩
    · rw [if_neg h]
      rw [List.pairwise_cons]
      constructor
      · intro z hz
        rcases (mem_insertSorted x ys z).mp hz with rfl | hz
        · rcases strLe_total y z with h' | h'
          · exact h'
          · exact absurd h' h
        · exact hy z hz
      · exact ih hys

theorem pairwise_sortStrs (l : List Str) : (sortStrs l).Pairwise SLe := by
  unfold sortStrs
  induction l with
  | nil => simp
  | cons x xs ih =>
    rw [List.foldr_cons]
    exact pairwise_insertSorted x _ ih

theorem scan_filter3 (o : Oracle) (content : Str) (whitelist : List Str)
    (amb_lookup : List (Str × Str)) (amb_skip : List Str) :
    (scan o content whitelist amb_lookup amb_skip).findings.filter
        (fun f => f.layer == 3) =
      scanPass3 o content whitelist amb_lookup amb_skip := by
  have hsplit : (scan o content whitelist amb_lookup amb_skip).findings =
      (scanPass1 o content whitelist).1 ++ ((scanPass2 o content whitelist).1 ++
        scanPass3 o content whitelist amb_lookup amb_skip) := by
    simp [scan]
  rw [hsplit, List.filter_append, List.filter_append]
  have h1 : (scanPass1 o content whitelist).1.filter (fun f => f.layer == 3) = [] := by
    rw [List.filter_eq_nil_iff]
    intro f hf
    have := (pass1go_findings whitelist (scanWloc content) (scanMissp o content)
      [] f hf).1
    simp [this]
  have h2 : (scanPass2 o content whitelist).1.filter (fun f => f.layer == 3) = [] := by
    rw [List.filter_eq_nil_iff]
    intro f hf
    rw [scanPass2] at hf
    by_cases hc : scanCands o content whitelist = []
    · rw [if_pos hc] at hf; simp at hf
    · rw [if_neg hc] at hf
      have := (pass2go_findings (scanWloc content)
        (scanWordValid o content whitelist)
        (scanPass1 o content whitelist).2.1 f hf).1
      simp [this]
  have h3 : (scanPass3 o content whitelist amb_lookup amb_skip).filter
      (fun f => f.layer == 3) = scanPass3 o content whitelist amb_lookup amb_skip := by
    rw [List.filter_eq_self]
    intro f hf
    have := (pass3go_findings amb_lookup amb_skip whitelist
      ((scanMissp o content).map Prod.fst) (scanWloc content)
      (scanSorted content) (scanPass2 o content whitelist).2 0 f hf).1
    simp [this]
  rw [h1, h2, h3, List.nil_append, List.nil_append]

theorem scan_filterNot3 (o : Oracle) (content : Str) (whitelist : List Str)
    (amb_lookup : List (Str × Str)) (amb_skip : List Str) :
    (scan o content whitelist amb_lookup amb_skip).findings.filter
        (fun f => f.layer != 3) =
      (scanPass1 o content whitelist).1 ++ (scanPass2 o content whitelist).1 := by
  have hsplit : (scan o content whitelist amb_lookup amb_skip).findings =
      (scanPass1 o content whitelist).1 ++ ((scanPass2 o content whitelist).1 ++
        scanPass3 o content whitelist amb_lookup amb_skip) := by
    simp [scan]
  rw [hsplit, List.filter_append, List.filter_append]
  have h1 : (scanPass1 o content whitelist).1.filter (fun f => f.layer != 3) =
      (scanPass1 o content whitelist).1 := by
    rw [List.filter_eq_self]
    intro f hf
    have := (pass1go_findings whitelist (scanWloc content) (scanMissp o content)
      [] f hf).1
    simp [this]
  have h2 : (scanPass2 o content whitelist).1.filter (fun f => f.layer != 3) =
      (scanPass2 o content whitelist).1 := by
    rw [List.filter_eq_self]
    intro f hf
    rw [scanPass2] at hf
    by_cases hc : scanCands o content whitelist = []
    · rw [if_pos hc] at hf; simp at hf
    · rw [if_neg hc] at hf
      have := (pass2go_findings (scanWloc content)
        (scanWordValid o content whitelist)
        (scanPass1 o content whitelist).2.1 f hf).1
      simp [this]
  have h3 : (scanPass3 o content whitelist amb_lookup amb_skip).filter
      (fun f => f.layer != 3) = [] := by
    rw [List.filter_eq_nil_iff]
    intro f hf
    have := (pass3go_findings amb_lookup amb_skip whitelist
      ((scanMissp o content).map Prod.fst) (scanWloc content)
      (scanSorted content) (scanPass2 o content whitelist).2 0 f hf).1
    simp [this]
  rw [h1, h2, h3, List.append_nil]

/-- Claim C8: Layer 3 produces at most 15 findings, each with confidence
medium, each for a word the oracle did not flag as misspelled and that no
earlier layer claimed, and the Layer 3 findings appear in lexicographically
sorted word order. -/
theorem claim_C8 (o : Oracle) (content : Str) (whitelist : List Str)
    (amb_lookup : List (Str × Str)) (amb_skip : List Str) :
    ((scan o content whitelist amb_lookup amb_skip).findings.filter
        (fun f => f.layer == 3)).length ≤ 15 ∧
      (∀ f ∈ (scan o content whitelist amb_lookup amb_skip).findings.filter
          (fun f => f.layer == 3),
        f.confidence = str "medium" ∧
          f.word ∉ (scanMissp o content).map Prod.fst ∧
          pyLower f.word ∉
            ((scan o content whitelist amb_lookup amb_skip).findings.filter
              (fun f => f.layer != 3)).map (fun f => pyLower f.word)) ∧
      ((scan o content whitelist amb_lookup amb_skip).findings.filter
        (fun f => f.layer == 3)).Pairwise (fun a b => SLe a.word b.word) := by
  rw [scan_filter3, scan_filterNot3]
  refine ⟨?_, ?_, ?_⟩
  · rw [scanPass3]
    have := pass3go_length amb_lookup amb_skip whitelist
      ((scanMissp o content).map Prod.fst) (scanWloc content)
      (scanSorted content) (scanPass2 o content whitelist).2 0 (by omega)
    omega
  · intro f hf
    obtain ⟨-, hconf, hmk, -⟩ := pass3go_findings amb_lookup amb_skip whitelist
      ((scanMissp o content).map Prod.fst) (scanWloc content)
      (scanSorted content) (scanPass2 o content whitelist).2 0 f hf
    refine ⟨hconf, hmk, ?_⟩
    have hdis := (pass3go_seen amb_lookup amb_skip whitelist
      ((scanMissp o content).map Prod.fst) (scanWloc content)
      (scanSorted content) (scanPass2 o content whitelist).2 0).2
    have hnot : pyLower f.word ∉ (scanPass2 o content whitelist).2 :=
      hdis (pyLower f.word) (List.mem_map.mpr ⟨f, hf, rfl⟩)
    intro habs
    rw [List.map_append, List.mem_append] at habs
    rcases habs with habs | habs
    · exact hnot ((scanPass2_seen_mem o content whitelist _).mpr (Or.inr habs))
    · exact hnot ((scanPass2_seen_mem o content whitelist _).mpr (Or.inl habs))
  · have hsub := pass3go_sublist amb_lookup amb_skip whitelist
      ((scanMissp o content).map Prod.fst) (scanWloc content)
      (scanSorted content) (scanPass2 o content whitelist).2 0
    have hsorted : (scanSorted content).Pairwise SLe := pairwise_sortStrs _
    have := List.Pairwise.sublist hsub hsorted
    rw [List.pairwise_map] at this
    exact this

/-- Witness for C8 at a concrete scan with a Layer 3 finding. -/
theorem claim_C8_witness :
    (⟨str "agac", str "ağaç", [1], str "medium", 3⟩ : Finding).confidence =
      str "medium" :=
  ((claim_C8 ⟨fun _ => [], fun l => l⟩ (str "agac") []
      [(str "agac", str "ağaç")] []).2.1
    ⟨str "agac", str "ağaç", [1], str "medium", 3⟩ (by decide)).1

/-!  ## Claim C10: word-index keys and the identifier pre-filter -/

theorem inner_keys (i : Nat) :
    ∀ (ws : List Str) (d : List (Str × List Nat)) (k : Str),
      k ∈ (ws.foldl
          (fun d' w => if w.length < 2 then d' else pdAppend d' w i) d).map Prod.fst →
        k ∈ d.map Prod.fst ∨ (k ∈ ws ∧ ¬ k.length < 2) := by
  intro ws
  induction ws with
  | nil => intro d k h; exact Or.inl h
  | cons w rest ih =>
    intro d k h
    rw [List.foldl_cons] at h
    by_cases hw : w.length < 2
    · rw [if_pos hw] at h
      rcases ih d k h with h' | h'
      · exact Or.inl h'
      · exact Or.inr ⟨List.mem_cons_of_mem _ h'.1, h'.2⟩
    · rw [if_neg hw] at h
      rcases ih _ k h with h' | h'
      · rcases pdAppend_keys d w i k h' with h'' | h''
        · exact Or.inl h''
        · subst h''
          exact Or.inr ⟨List.mem_cons_self _ _, hw⟩
      · exact Or.inr ⟨List.mem_cons_of_mem _ h'.1, h'.2⟩

theorem wloc_keys_aux :
    ∀ (lines : List (Nat × Str)) (d : List (Str × List Nat)) (k : Str),
      k ∈ (lines.foldl
          (fun d p =>
            (findall_words p.2).foldl
              (fun d' w => if w.length < 2 then d' else pdAppend d' w p.1) d)
          d).map Prod.fst →
        k ∈ d.map Prod.fst ∨
          ∃ p ∈ lines, k ∈ findall_words p.2 ∧ ¬ k.length < 2 := by
  intro lines
  induction lines with
  | nil => intro d k h; exact Or.inl h
  | cons p rest ih =>
    intro d k h
    rw [List.foldl_cons] at h
    rcases ih _ k h with h' | h'
    · rcases inner_keys p.1 (findall_words p.2) d k h' with h'' | h''
      · exact Or.inl h''
      · exact Or.inr ⟨p, List.mem_cons_self _ _, h''⟩
    · obtain ⟨q, hq, hk⟩ := h'
      exact Or.inr ⟨q, List.mem_cons_of_mem _ hq, hk⟩

theorem wloc_keys (prose : Str) (k : Str)
    (h : k ∈ (word_locations prose).map Prod.fst) :
    k.all isLetterTk = true ∧ 2 ≤ k.length := by
  unfold word_locations at h
  rcases wloc_keys_aux _ [] k h with h' | h'
  · simp at h'
  · obtain ⟨p, -, hk, hlen⟩ := h'
    unfold findall_words at hk
    have := List.of_mem_filter hk
    exact ⟨this, by omega⟩

theorem matchSep_mem (sep : Char) (w : Str) (h : matchSep sep w = true) :
    sep ∈ w := by
  unfold matchSep at h
  cases hd : w.drop (w.takeWhile isAsciiLetter).length with
  | nil => rw [hd] at h; simp at h
  | cons c b =>
    rw [hd] at h
    simp only [] at h
    simp only [Bool.and_eq_true, decide_eq_true_eq] at h
    have hc : c = sep := h.1.1.1
    subst hc
    exact List.mem_of_mem_drop (hd ▸ List.mem_cons_self c b)

theorem isLetterTk_not_special (c : Char) (h : isLetterTk c = true) :
    c ≠ '_' ∧ c ≠ '-' ∧ isDigitCh c = false := by
  refine ⟨?_, ?_, ?_⟩
  · intro hc; subst hc; exact absurd h (by decide)
  · intro hc; subst hc; exact absurd h (by decide)
  · simp only [isLetterTk, Bool.or_eq_true, isAsciiLetter, Bool.and_eq_true,
      decide_eq_true_eq] at h
    rcases h with (h | h) | h
    · simp [isDigitCh]
      omega
    · simp [isDigitCh]
      omega
    · fin_cases h <;> decide

theorem is_identifier_letters (w : Str) (hl : ∀ c ∈ w, isLetterTk c = true) :
    is_identifier w = (matchCamel w || matchCaps w) ∧
      matchSep '_' w = false ∧ matchSep '-' w = false := by
  have hu : matchSep '_' w = false := by
    by_contra habs
    have := matchSep_mem '_' w (by revert habs; cases matchSep '_' w <;> simp)
    exact absurd (hl '_' this) (by decide)
  have hk : matchSep '-' w = false := by
    by_contra habs
    have := matchSep_mem '-' w (by revert habs; cases matchSep '-' w <;> simp)
    exact absurd (hl '-' this) (by decide)
  refine ⟨?_, hu, hk⟩
  unfold is_identifier
  rw [hu, hk]
  cases matchCamel w <;> cases matchCaps w <;> rfl

/-- Claim C10: every key of the word index is a run of Latin or
Turkish-diacritic letters of length at least 2, containing no underscore,
hyphen, or digit, so on indexed words the identifier pre-filter can match
only through its camelCase or ALL-CAPS branches. -/
theorem claim_C10 (content : Str) (w : Str)
    (hw : w ∈ (scanWloc content).map Prod.fst) :
    2 ≤ w.length ∧ (∀ c ∈ w, isLetterTk c = true) ∧ '_' ∉ w ∧ '-' ∉ w ∧
      (∀ c ∈ w, isDigitCh c = false) ∧
      is_identifier w = (matchCamel w || matchCaps w) ∧
      matchSep '_' w = false ∧ matchSep '-' w = false := by
  obtain ⟨hall, hlen⟩ := wloc_keys (scanProse content) w hw
  have hl : ∀ c ∈ w, isLetterTk c = true := fun c hc =>
    List.all_eq_true.mp hall c hc
  obtain ⟨hid, hu, hk⟩ := is_identifier_letters w hl
  refine ⟨hlen, hl, ?_, ?_, ?_, hid, hu, hk⟩
  · intro habs
    exact absurd (hl '_' habs) (by decide)
  · intro habs
    exact absurd (hl '-' habs) (by decide)
  · intro c hc
    exact (isLetterTk_not_special c (hl c hc)).2.2

/-- Witness for C10 at a concrete document. -/
theorem claim_C10_witness :
    is_identifier (str "ornek") =
      (matchCamel (str "ornek") || matchCaps (str "ornek")) :=
  (claim_C10 (str "Bu bir ornek metindir") (str "ornek") (by decide)).2.2.2.2.2.1

/-!  ## Claim C9: exit codes and output channels -/

theorem renderReport_ne_nil (fp : Str) (errors : List Finding) :
    renderReport fp errors ≠ [] := by
  unfold renderReport
  intro habs
  rw [List.append_eq_nil] at habs
  exact absurd habs.2 (by simp)

/-- Claim C9: the process writes nothing to standard output, exits 0 exactly
when no findings are produced (including every early-exit path), exits 2
exactly when findings exist, and in that case standard error carries exactly
the rendered report (which is never empty). -/
theorem claim_C9 (checkFiles : List Str) (stdin : StdinData)
    (fs : Str → Option Str) (o : Oracle) (whitelist : List Str)
    (amb_lookup : List (Str × Str)) (amb_skip : List Str) :
    (progMain checkFiles stdin fs o whitelist amb_lookup amb_skip).out = [] ∧
      ((progMain checkFiles stdin fs o whitelist amb_lookup amb_skip).exit = 0 ↔
        (progMain checkFiles stdin fs o whitelist amb_lookup amb_skip).findings = []) ∧
      ((progMain checkFiles stdin fs o whitelist amb_lookup amb_skip).exit = 2 ↔
        (progMain checkFiles stdin fs o whitelist amb_lookup amb_skip).findings ≠ []) ∧
      ((progMain checkFiles stdin fs o whitelist amb_lookup amb_skip).findings = [] →
        (progMain checkFiles stdin fs o whitelist amb_lookup amb_skip).err = []) ∧
      (∀ tool fp, stdin = StdinData.event tool fp →
        (progMain checkFiles stdin fs o whitelist amb_lookup amb_skip).findings ≠ [] →
        (progMain checkFiles stdin fs o whitelist amb_lookup amb_skip).err =
            renderReport fp
              (progMain checkFiles stdin fs o whitelist amb_lookup amb_skip).findings ∧
          (progMain checkFiles stdin fs o whitelist amb_lookup amb_skip).err ≠ []) := by
  cases stdin with
  | malformed =>
    exact ⟨rfl, by simp [progMain], by simp [progMain], fun _ => rfl,
      fun tool fp heq => StdinData.noConfusion heq⟩
  | event tool fp =>
    simp only [progMain]
    by_cases h1 : tool ≠ str "Edit" ∧ tool ≠ str "Write"
    · rw [if_pos h1]
      exact ⟨rfl, by simp, by simp, fun _ => rfl,
        fun tool' fp' heq hne => absurd rfl hne⟩
    · rw [if_neg h1]
      by_cases h2 : fp = []
      · rw [if_pos h2]
        exact ⟨rfl, by simp, by simp, fun _ => rfl,
          fun tool' fp' heq hne => absurd rfl hne⟩
      · rw [if_neg h2]
        by_cases h3 : basename fp ∉ checkFiles
        · rw [if_pos h3]
          exact ⟨rfl, by simp, by simp, fun _ => rfl,
            fun tool' fp' heq hne => absurd rfl hne⟩
        · rw [if_neg h3]
          cases hfs : fs fp with
          | none =>
            exact ⟨rfl, by simp, by simp, fun _ => rfl,
              fun tool' fp' heq hne => absurd rfl hne⟩
          | some content =>
            simp only []
            by_cases herr :
                (scan o content whitelist amb_lookup amb_skip).findings = []
            · rw [if_pos herr]
              exact ⟨rfl, by simp, by simp, fun _ => rfl,
                fun tool' fp' heq hne => absurd rfl hne⟩
            · rw [if_neg herr]
              refine ⟨rfl, by simp [herr], by simp [herr], fun h => absurd h herr, ?_⟩
              intro tool' fp' heq hne
              obtain ⟨-, rfl⟩ : tool = tool' ∧ fp = fp' := by
                cases heq
                exact ⟨rfl, rfl⟩
              exact ⟨rfl, renderReport_ne_nil _ _⟩

/-- Witness for C9: a concrete invocation with findings exits with a
non-empty diagnostic report. -/
theorem claim_C9_witness :
    (progMain [str "tr.md"] (StdinData.event (str "Write") (str "/docs/tr.md"))
        (fun p => if p = str "/docs/tr.md"
          then some (str "Bu bir ornek metindir") else none)
        ⟨fun _ => [(str "ornek", [str "örnek"])], fun l => l⟩ [] [] []).err ≠ [] :=
  ((claim_C9 [str "tr.md"] (StdinData.event (str "Write") (str "/docs/tr.md"))
      (fun p => if p = str "/docs/tr.md"
        then some (str "Bu bir ornek metindir") else none)
      ⟨fun _ => [(str "ornek", [str "örnek"])], fun l => l⟩ [] [] []).2.2.2.2
    (str "Write") (str "/docs/tr.md") rfl (by decide)).2

/-!  ## Claim C3: two-run determinism -/

/-- Claim C3 (counterexample): two oracles that agree on every batch-check
answer and whose validity answers agree as sets (they are permutations —
exactly the freedom the source's iteration over the Python set
`valid_variants` leaves to the process's hash order) can still produce
different findings: for the word `cok`, both `cök` and `çok` are valid
one-diacritic variants, and `min` breaks the tie by enumeration order. -/
theorem claim_C3_cex :
    (∀ t, (⟨fun _ => [(str "cok", [])],
        fun l => l.filter (fun v => v ∈ [str "cök", str "çok"])⟩ : Oracle).check t =
      (⟨fun _ => [(str "cok", [])],
        fun l => (l.filter (fun v => v ∈ [str "cök", str "çok"])).reverse⟩ :
          Oracle).check t) ∧
      (∀ l, ((⟨fun _ => [(str "cok", [])],
          fun l => l.filter (fun v => v ∈ [str "cök", str "çok"])⟩ : Oracle).valid
            l).Perm
        ((⟨fun _ => [(str "cok", [])],
          fun l => (l.filter (fun v => v ∈ [str "cök", str "çok"])).reverse⟩ :
            Oracle).valid l)) ∧
      (scan ⟨fun _ => [(str "cok", [])],
          fun l => l.filter (fun v => v ∈ [str "cök", str "çok"])⟩
        (str "cok") [] [] []).findings ≠
      (scan ⟨fun _ => [(str "cok", [])],
          fun l => (l.filter (fun v => v ∈ [str "cök", str "çok"])).reverse⟩
        (str "cok") [] [] []).findings :=
  ⟨fun _ => rfl, fun l => (List.reverse_perm _).symm, by decide⟩

/-- Claim C3 (amended): the scan is a pure function of the document content,
the dictionaries, and the oracle's answer *sequences* — two runs whose oracle
answers agree as sequences (the enumeration order of the validity answer
included) yield identical findings.  Agreement of the validity answer as a
set only is not enough, because Layer 2 breaks diacritic-count ties by the
enumeration order of the set `valid_variants`. -/
theorem claim_C3_amended (o1 o2 : Oracle)
    (hcheck : ∀ t, o1.check t = o2.check t)
    (hvalid : ∀ l, o1.valid l = o2.valid l)
    (content : Str) (whitelist : List Str) (amb_lookup : List (Str × Str))
    (amb_skip : List Str) :
    scan o1 content whitelist amb_lookup amb_skip =
      scan o2 content whitelist amb_lookup amb_skip := by
  have hm : scanMissp o1 content = scanMissp o2 content := by
    unfold scanMissp; rw [hcheck]
  have hp1 : scanPass1 o1 content whitelist = scanPass1 o2 content whitelist := by
    unfold scanPass1; rw [hm]
  have hc : scanCands o1 content whitelist = scanCands o2 content whitelist := by
    unfold scanCands; rw [hp1]
  have hav : scanAllVariants o1 content whitelist =
      scanAllVariants o2 content whitelist := by
    unfold scanAllVariants; rw [hc]
  have hve : scanValidEnum o1 content whitelist =
      scanValidEnum o2 content whitelist := by
    unfold scanValidEnum; rw [hav, hvalid]
  have hwv : scanWordValid o1 content whitelist =
      scanWordValid o2 content whitelist := by
    unfold scanWordValid; rw [hc, hve]
  have hp2 : scanPass2 o1 content whitelist = scanPass2 o2 content whitelist := by
    unfold scanPass2; rw [hc, hwv, hp1]
  have hp3 : scanPass3 o1 content whitelist amb_lookup amb_skip =
      scanPass3 o2 content whitelist amb_lookup amb_skip := by
    unfold scanPass3; rw [hm, hp2]
  unfold scan
  rw [hp1, hp2, hp3, hc, hav]

/-- Witness for the amended C3 theorem at a concrete oracle. -/
theorem claim_C3_amended_witness :
    scan ⟨fun _ => [(str "ornek", [str "örnek"])], fun l => l⟩
        (str "Bu bir ornek metindir") [] [] [] =
      scan ⟨fun _ => [(str "ornek", [str "örnek"])], fun l => l⟩
        (str "Bu bir ornek metindir") [] [] [] :=
  claim_C3_amended _ _ (fun _ => rfl) (fun _ => rfl)
    (str "Bu bir ornek metindir") [] [] []
